import Mathlib

/-!
Verification of the incremental document-indexing and retrieval pipeline.

The development shallowly embeds the pipeline of `src/main.py`:
strings are lists of characters, remote services (embedding model,
vector store, generation model) are oracle functions supplied as
parameters, and every externally visible action of an ingestion run is
recorded in an explicit event trace.
-/

namespace CoachingBot

/-! ## Python string primitives

Python `str.strip()` removes leading and trailing whitespace.  We model
the ASCII whitespace characters recognised by CPython. -/

def pyWS (c : Char) : Bool :=
  c = ' ' || c = '\t' || c = '\n' || c = '\r' || c = '\x0b' || c = '\x0c'

def pyStripLeft (l : List Char) : List Char := l.dropWhile pyWS

def pyStripRight (l : List Char) : List Char := (l.reverse.dropWhile pyWS).reverse

def pyStrip (l : List Char) : List Char := pyStripRight (pyStripLeft l)

/-! ## Sentence splitting (first pass of `smart_chunk_text`)

The source scans character by character, closing a sentence at `.`, `!`
or `?` once the accumulated sentence is longer than 10 characters, and
appends the stripped remainder at the end when it is not blank. -/

def isTerm (c : Char) : Bool := c = '.' || c = '!' || c = '?'

def splitSentencesAux : List Char → List Char → List (List Char)
  | [], cur => if pyStrip cur = [] then [] else [pyStrip cur]
  | c :: rest, cur =>
    if isTerm c ∧ 10 < (cur ++ [c]).length then
      pyStrip (cur ++ [c]) :: splitSentencesAux rest []
    else
      splitSentencesAux rest (cur ++ [c])

def sentencesOf (t : List Char) : List (List Char) := splitSentencesAux t []

/-! ## Combining sentences into chunks (second pass)

`current_chunk` accumulates sentences joined by a single space; when
appending the next sentence would exceed `max_chunk_size` the chunk is
closed (stripped) and the next chunk is seeded with the trailing
`overlap` characters of the previous chunk. -/

def seedChunk (ov : Nat) (cur s : List Char) : List Char :=
  if 0 < ov ∧ ov < cur.length then cur.drop (cur.length - ov) ++ ' ' :: s else s

def buildAux (M ov : Nat) : List (List Char) → List Char → List (List Char)
  | [], cur => if pyStrip cur = [] then [] else [pyStrip cur]
  | s :: rest, cur =>
    if cur ≠ [] ∧ M < cur.length + 1 + s.length then
      pyStrip cur :: buildAux M ov rest (seedChunk ov cur s)
    else
      buildAux M ov rest (if cur = [] then s else cur ++ ' ' :: s)

/-! ## Hard splitting of oversized chunks (third pass)

A chunk still longer than `max_chunk_size` is cut on fixed character
boundaries.  Implemented with a structural fuel argument (the fuel
`l.length` always suffices when the bound is positive) so that the
function evaluates inside the kernel. -/

def hardPiecesGo (M : Nat) : Nat → List Char → List (List Char)
  | 0, _ => []
  | _, [] => []
  | fuel + 1, l => l.take M :: hardPiecesGo M fuel (l.drop M)

def hardPieces (M : Nat) (l : List Char) : List (List Char) :=
  hardPiecesGo M l.length l

def finalPass (M : Nat) (chunks : List (List Char)) : List (List Char) :=
  chunks.flatMap fun c => if c.length ≤ M then [c] else hardPieces M c

def smart_chunk_text_core (text : List Char) (M ov : Nat) : List (List Char) :=
  if pyStrip text = [] then []
  else finalPass M (buildAux M ov (sentencesOf text) [])

def smart_chunk_text (text : String) (M ov : Nat) : List String :=
  (smart_chunk_text_core text.toList M ov).map fun l => String.mk l

/-! ## Basic facts about the hard-split pass -/

lemma hardPiecesGo_spec (M : Nat) (hM : 0 < M) :
    ∀ fuel l, l.length ≤ fuel →
      (∀ c ∈ hardPiecesGo M fuel l, c.length ≤ M) ∧
      (hardPiecesGo M fuel l).flatten = l := by
  intro fuel
  induction fuel with
  | zero =>
    intro l hl
    have : l = [] := List.length_eq_zero.mp (Nat.le_zero.mp hl)
    subst this
    simp [hardPiecesGo]
  | succ n ih =>
    intro l hl
    cases l with
    | nil => simp [hardPiecesGo]
    | cons a t =>
      have hlen : ((a :: t).drop M).length ≤ n := by
        have := List.length_drop M (a :: t)
        simp only [this]
        have : (a :: t).length ≤ n + 1 := hl
        omega
      have ihd := ih ((a :: t).drop M) hlen
      constructor
      · intro c hc
        simp only [hardPiecesGo, List.mem_cons] at hc
        rcases hc with h | h
        · subst h
          simp
        · exact ihd.1 c h
      · simp only [hardPiecesGo, List.flatten_cons]
        rw [ihd.2]
        exact List.take_append_drop M (a :: t)

lemma hardPieces_length_le (M : Nat) (hM : 0 < M) (l : List Char) :
    ∀ c ∈ hardPieces M l, c.length ≤ M :=
  (hardPiecesGo_spec M hM l.length l le_rfl).1

lemma hardPieces_flatten (M : Nat) (hM : 0 < M) (l : List Char) :
    (hardPieces M l).flatten = l :=
  (hardPiecesGo_spec M hM l.length l le_rfl).2

lemma finalPass_length_le (M : Nat) (hM : 0 < M) (chunks : List (List Char)) :
    ∀ c ∈ finalPass M chunks, c.length ≤ M := by
  intro c hc
  simp only [finalPass, List.mem_flatMap] at hc
  obtain ⟨b, _, hb⟩ := hc
  by_cases h : b.length ≤ M
  · simp [h] at hb
    simpa [hb] using h
  · simp [h] at hb
    exact hardPieces_length_le M hM b c hb

lemma finalPass_flatten (M : Nat) (hM : 0 < M) (chunks : List (List Char)) :
    (finalPass M chunks).flatten = chunks.flatten := by
  induction chunks with
  | nil => rfl
  | cons c rest ih =>
    simp only [finalPass, List.flatMap_cons] at *
    rw [List.flatten_append, ih]
    by_cases h : c.length ≤ M
    · simp [h]
    · simp [h, hardPieces_flatten M hM c]

/-- Claim C1: every chunk returned by `smart_chunk_text` with a positive
maximum size `M` has length at most `M`, and blank (empty or
all-whitespace) input yields the empty chunk list. -/
theorem smart_chunk_text_length_bound_and_blank (text : String) (M ov : Nat) :
    (0 < M → ∀ c ∈ smart_chunk_text text M ov, c.length ≤ M) ∧
    (pyStrip text.toList = [] → smart_chunk_text text M ov = []) := by
  constructor
  · intro hM c hc
    simp only [smart_chunk_text, List.mem_map] at hc
    obtain ⟨l, hl, rfl⟩ := hc
    rw [smart_chunk_text_core] at hl
    split at hl
    · simp at hl
    · have := finalPass_length_le M hM _ l hl
      simpa [String.length] using this
  · intro hb
    simp only [smart_chunk_text, smart_chunk_text_core, String.toList] at *
    rw [if_pos hb]
    rfl

/-- Claim C1 witness: the bound and the blank case hold on concrete inputs. -/
theorem smart_chunk_text_length_bound_and_blank_witness :
    ("Hello there friend." ∈ smart_chunk_text "Hello there friend. More text follows here." 25 5 ∧
      "Hello there friend.".length ≤ 25) ∧
    smart_chunk_text "   \n " 25 5 = [] := by
  refine ⟨⟨by decide, ?_⟩, ?_⟩
  · exact (smart_chunk_text_length_bound_and_blank
      "Hello there friend. More text follows here." 25 5).1 (by decide)
      "Hello there friend." (by decide)
  · exact (smart_chunk_text_length_bound_and_blank "   \n " 25 5).2 (by decide)

/-! ## Instrumented chunk building

`buildAuxI` mirrors `buildAux` exactly, additionally tracking for every
emitted chunk how many of its leading characters are overlap carried
over from the previous chunk.  The extra state `cl` is the length of the
carried slice sitting at the head of the raw accumulator; `ovIn`
computes how much of it survives the final `strip`. -/

def leadWS (l : List Char) : Nat := (l.takeWhile pyWS).length

def ovIn (cl : Nat) (cur : List Char) : Nat := cl - min cl (leadWS cur)

def seedLen (ov : Nat) (cur : List Char) : Nat :=
  if 0 < ov ∧ ov < cur.length then ov else 0

def buildAuxI (M ov : Nat) : List (List Char) → Nat → List Char → List (Nat × List Char)
  | [], cl, cur => if pyStrip cur = [] then [] else [(ovIn cl cur, pyStrip cur)]
  | s :: rest, cl, cur =>
    if cur ≠ [] ∧ M < cur.length + 1 + s.length then
      (ovIn cl cur, pyStrip cur) ::
        buildAuxI M ov rest (seedLen ov cur) (seedChunk ov cur s)
    else
      buildAuxI M ov rest cl (if cur = [] then s else cur ++ ' ' :: s)

/-- Remove from a chunk the overlap prefix carried over from the
previous chunk. -/
def dropOv (p : Nat × List Char) : List Char := p.2.drop p.1

/-- Concatenate chunks after removing their carried overlap prefixes. -/
def flatDrop (l : List (Nat × List Char)) : List Char := (l.map dropOv).flatten

lemma buildAuxI_snd (M ov : Nat) :
    ∀ rest cl cur, (buildAuxI M ov rest cl cur).map Prod.snd = buildAux M ov rest cur := by
  intro rest
  induction rest with
  | nil =>
    intro cl cur
    simp only [buildAuxI, buildAux]
    split <;> simp
  | cons s rest ih =>
    intro cl cur
    simp only [buildAuxI, buildAux]
    split
    · simp [ih]
    · exact ih _ _

/-! ## Joining sentences with flexible separators

`spaceJoin` is the single-space join used inside a chunk.  `FlexJoin ss r`
says that `r` consists of the sentences `ss` in order, consecutive
sentences separated by a single space or by nothing. -/

def spaceJoin : List (List Char) → List Char
  | [] => []
  | [s] => s
  | s :: rest => s ++ ' ' :: spaceJoin rest

inductive FlexJoin : List (List Char) → List Char → Prop
  | nil : FlexJoin [] []
  | single (s : List Char) : FlexJoin [s] s
  | cons (s sep : List Char) (rest : List (List Char)) (r : List Char) :
      rest ≠ [] → (sep = [] ∨ sep = [' ']) → FlexJoin rest r →
      FlexJoin (s :: rest) (s ++ sep ++ r)

lemma spaceJoin_append_single (pend : List (List Char)) (s : List Char) (h : pend ≠ []) :
    spaceJoin (pend ++ [s]) = spaceJoin pend ++ ' ' :: s := by
  induction pend with
  | nil => exact absurd rfl h
  | cons a t ih =>
    cases t with
    | nil => simp [spaceJoin]
    | cons b u =>
      have : spaceJoin ((b :: u) ++ [s]) = spaceJoin (b :: u) ++ ' ' :: s :=
        ih (by simp)
      simp only [List.cons_append, spaceJoin, this]
      simpa using this

lemma flexJoin_spaceJoin (pend : List (List Char)) (h : pend ≠ []) :
    FlexJoin pend (spaceJoin pend) := by
  induction pend with
  | nil => exact absurd rfl h
  | cons a t ih =>
    cases t with
    | nil => exact FlexJoin.single a
    | cons b u =>
      have : spaceJoin (a :: b :: u) = a ++ [' '] ++ spaceJoin (b :: u) := by
        simp [spaceJoin]
      rw [this]
      exact FlexJoin.cons a [' '] (b :: u) _ (by simp) (Or.inr rfl) (ih (by simp))

lemma flexJoin_append {a b : List (List Char)} {ra rb m : List Char}
    (ha : FlexJoin a ra) (hane : a ≠ []) (hb : FlexJoin b rb) (hbne : b ≠ [])
    (hm : m = [] ∨ m = [' ']) : FlexJoin (a ++ b) (ra ++ m ++ rb) := by
  induction ha with
  | nil => exact absurd rfl hane
  | single s => exact FlexJoin.cons s m b rb hbne hm hb
  | cons s sep rest r hne hsep hr ih =>
    have := ih (by simpa using hne)
    have goal : FlexJoin (s :: (rest ++ b)) (s ++ sep ++ (r ++ m ++ rb)) :=
      FlexJoin.cons s sep (rest ++ b) (r ++ m ++ rb)
        (by simp [hne]) hsep this
    simpa [List.append_assoc] using goal

/-! ## Properties of stripped sentences -/

def startsNW (l : List Char) : Prop := ∀ c, l.head? = some c → pyWS c = false

def endsNW (l : List Char) : Prop := ∀ c, l.getLast? = some c → pyWS c = false

def goodSent (l : List Char) : Prop := l ≠ [] ∧ startsNW l ∧ endsNW l

lemma pyStripLeft_eq_drop (l : List Char) : pyStripLeft l = l.drop (leadWS l) := by
  have h := List.takeWhile_append_dropWhile pyWS l
  calc pyStripLeft l
      = List.drop (l.takeWhile pyWS).length (l.takeWhile pyWS ++ l.dropWhile pyWS) := by
        rw [List.drop_left]
        rfl
    _ = l.drop (leadWS l) := by rw [h]; rfl

lemma pyStripRight_of_endsNW (l : List Char) (_hne : l ≠ []) (he : endsNW l) :
    pyStripRight l = l := by
  unfold pyStripRight
  cases hr : l.reverse with
  | nil =>
    have hl : l = [] := by simpa using congrArg List.reverse hr
    rw [hl]
    rfl
  | cons c t =>
    have hc : l.getLast? = some c := by
      rw [← List.head?_reverse, hr]
      rfl
    have : pyWS c = false := he c hc
    rw [List.dropWhile_cons_of_neg (by simp [this]), ← hr, List.reverse_reverse]

lemma getLast?_append_right (l₁ l₂ : List Char) (h : l₂ ≠ []) :
    (l₁ ++ l₂).getLast? = l₂.getLast? := by
  rw [List.getLast?_append]
  cases l₂ with
  | nil => exact absurd rfl h
  | cons a t =>
    have hx : (a :: t).getLast? ≠ none := by simp [List.getLast?_eq_none_iff]
    cases hv : (a :: t).getLast? with
    | none => exact absurd hv hx
    | some x => simp [Option.or]

lemma endsNW_append (a b : List Char) (hb : b ≠ []) (he : endsNW b) :
    endsNW (a ++ b) := by
  intro c hc
  rw [getLast?_append_right a b hb] at hc
  exact he c hc

/-- Left-stripping a list that ends in a non-whitespace character leaves
its last character in place, so the whole strip is a left strip. -/
lemma pyStrip_of_endsNW (l : List Char) (_hne : l ≠ []) (he : endsNW l) :
    pyStrip l = l.drop (leadWS l) := by
  unfold pyStrip
  rw [pyStripLeft_eq_drop]
  by_cases hd : l.drop (leadWS l) = []
  · rw [hd]; rfl
  · apply pyStripRight_of_endsNW _ hd
    intro c hc
    apply he c
    have hsplit : l = l.takeWhile pyWS ++ l.dropWhile pyWS :=
      (List.takeWhile_append_dropWhile pyWS l).symm
    have hdw : l.dropWhile pyWS = l.drop (leadWS l) := pyStripLeft_eq_drop l
    rw [hsplit, getLast?_append_right _ _ (by rw [hdw]; exact hd), hdw]
    exact hc

lemma leadWS_append_le (a J : List Char) (hJ : startsNW J) (hne : J ≠ []) :
    leadWS (a ++ J) ≤ a.length := by
  unfold leadWS
  rw [List.takeWhile_append]
  have hJt : J.takeWhile pyWS = [] := by
    cases J with
    | nil => exact absurd rfl hne
    | cons c t =>
      have : pyWS c = false := hJ c rfl
      simp [List.takeWhile_cons, this]
  split
  · rw [hJt]
    simp
  · exact (List.takeWhile_sublist pyWS).length_le

lemma pyStrip_ne_nil_of_shorter (l : List Char) (k : Nat) (hk : k < l.length)
    (h : pyStrip l = l.drop k) : pyStrip l ≠ [] := by
  rw [h]
  intro hc
  have := List.length_drop k l
  rw [hc] at this
  simp at this
  omega

lemma head?_append_left (s x : List Char) (h : s ≠ []) : (s ++ x).head? = s.head? := by
  cases s with
  | nil => exact absurd rfl h
  | cons a t => rfl

lemma spaceJoin_good (pend : List (List Char)) (hpend : pend ≠ [])
    (hg : ∀ s ∈ pend, goodSent s) : goodSent (spaceJoin pend) := by
  induction pend with
  | nil => exact absurd rfl hpend
  | cons a t ih =>
    have hga : goodSent a := hg a (by simp)
    cases t with
    | nil => simpa [spaceJoin] using hga
    | cons b u =>
      have iht : goodSent (spaceJoin (b :: u)) :=
        ih (by simp) (fun s hs => hg s (List.mem_cons_of_mem a hs))
      obtain ⟨hane, has, hae⟩ := hga
      obtain ⟨htne, hts, hte⟩ := iht
      have hform : spaceJoin (a :: b :: u) = a ++ (' ' :: spaceJoin (b :: u)) := by
        simp [spaceJoin]
      refine ⟨?_, ?_, ?_⟩
      · rw [hform]
        simp [hane]
      · intro c hc
        rw [hform, head?_append_left a _ hane] at hc
        exact has c hc
      · rw [hform]
        apply endsNW_append a _ (by simp)
        intro c hc
        have : (' ' :: spaceJoin (b :: u)).getLast? = (spaceJoin (b :: u)).getLast? := by
          have := getLast?_append_right [' '] (spaceJoin (b :: u)) htne
          simpa using this
        rw [this] at hc
        exact hte c hc

/-- Closing a chunk: the emitted chunk is the stripped raw accumulator,
and removing its residual overlap prefix leaves the pending sentences
joined by single spaces, preceded by an empty or single-space margin. -/
lemma dropOv_close (carried sep : List Char) (pend : List (List Char))
    (hsep : sep = [] ∨ sep = [' ']) (hcs : carried = [] → sep = [])
    (hpend : pend ≠ []) (hg : ∀ s ∈ pend, goodSent s) :
    pyStrip (carried ++ (sep ++ spaceJoin pend)) ≠ [] ∧
    ∃ w, (w = [] ∨ w = [' ']) ∧ (carried = [] → w = []) ∧
      dropOv (ovIn carried.length (carried ++ (sep ++ spaceJoin pend)),
              pyStrip (carried ++ (sep ++ spaceJoin pend))) = w ++ spaceJoin pend := by
  obtain ⟨hJne, hJs, hJe⟩ := spaceJoin_good pend hpend hg
  have hassoc : carried ++ (sep ++ spaceJoin pend) = (carried ++ sep) ++ spaceJoin pend := by
    simp [List.append_assoc]
  have hends : endsNW (carried ++ (sep ++ spaceJoin pend)) := by
    rw [hassoc]
    exact endsNW_append _ _ hJne hJe
  have hwne : carried ++ (sep ++ spaceJoin pend) ≠ [] := by
    simp [hJne]
  have hk : leadWS (carried ++ (sep ++ spaceJoin pend)) ≤ (carried ++ sep).length := by
    rw [hassoc]
    exact leadWS_append_le _ _ hJs hJne
  have hstrip := pyStrip_of_endsNW _ hwne hends
  have hklt : leadWS (carried ++ (sep ++ spaceJoin pend))
      < (carried ++ (sep ++ spaceJoin pend)).length := by
    have : (carried ++ sep).length < (carried ++ (sep ++ spaceJoin pend)).length := by
      simp only [List.length_append]
      have : 0 < (spaceJoin pend).length := List.length_pos.mpr hJne
      omega
    omega
  refine ⟨pyStrip_ne_nil_of_shorter _ _ hklt hstrip, ?_⟩
  set k := leadWS (carried ++ (sep ++ spaceJoin pend)) with hkdef
  have hdrop : dropOv (ovIn carried.length (carried ++ (sep ++ spaceJoin pend)),
      pyStrip (carried ++ (sep ++ spaceJoin pend)))
      = (carried ++ (sep ++ spaceJoin pend)).drop
          (k + (carried.length - min carried.length k)) := by
    simp only [dropOv, ovIn, hstrip]
    rw [List.drop_drop]
  by_cases hkc : k ≤ carried.length
  · refine ⟨sep, hsep, hcs, ?_⟩
    rw [hdrop]
    have : k + (carried.length - min carried.length k) = carried.length := by
      omega
    rw [this, List.drop_left]
  · refine ⟨[], Or.inl rfl, fun _ => rfl, ?_⟩
    rw [hdrop]
    have hsep1 : sep = [' '] := by
      rcases hsep with h | h
      · subst h
        simp at hk
        omega
      · exact h
    have hkeq : k + (carried.length - min carried.length k) = (carried ++ sep).length := by
      subst hsep1
      simp only [List.length_append, List.length_cons, List.length_nil] at hk ⊢
      omega
    rw [hkeq, hassoc, List.drop_left]
    rfl

/-! ## The sentences produced by the splitting pass are stripped and nonempty -/

lemma goodSent_pyStrip (l : List Char) (h : pyStrip l ≠ []) : goodSent (pyStrip l) := by
  have hL : l.dropWhile pyWS ≠ [] := by
    intro hc
    apply h
    show pyStripRight (pyStripLeft l) = []
    unfold pyStripLeft
    rw [hc]
    rfl
  have hD : (l.dropWhile pyWS).reverse.dropWhile pyWS ≠ [] := by
    intro hc
    apply h
    show ((pyStripLeft l).reverse.dropWhile pyWS).reverse = []
    unfold pyStripLeft
    rw [hc]
    rfl
  have hDrev_ne : ((l.dropWhile pyWS).reverse.dropWhile pyWS).reverse ≠ [] := by
    intro hx
    exact hD (by rwa [List.reverse_eq_nil_iff] at hx)
  have hLdec : l.dropWhile pyWS
      = ((l.dropWhile pyWS).reverse.dropWhile pyWS).reverse
        ++ ((l.dropWhile pyWS).reverse.takeWhile pyWS).reverse := by
    conv_lhs => rw [← List.reverse_reverse (l.dropWhile pyWS),
      ← List.takeWhile_append_dropWhile pyWS (l.dropWhile pyWS).reverse]
    rw [List.reverse_append]
  refine ⟨h, ?_, ?_⟩
  · intro c hc
    have hhd : (l.dropWhile pyWS).head? = (pyStrip l).head? := by
      conv_lhs => rw [hLdec]
      exact head?_append_left _ _ hDrev_ne
    have hsome : some ((l.dropWhile pyWS).head hL) = some c := by
      rw [← List.head?_eq_head hL, hhd]
      exact hc
    have hed : (l.dropWhile pyWS).head hL = c := Option.some.inj hsome
    rw [← hed]
    exact List.head_dropWhile_not pyWS l hL
  · intro c hc
    have hgl : (pyStrip l).getLast?
        = ((l.dropWhile pyWS).reverse.dropWhile pyWS).head? := by
      show (((l.dropWhile pyWS).reverse.dropWhile pyWS).reverse).getLast? = _
      have h2 := List.head?_reverse ((l.dropWhile pyWS).reverse.dropWhile pyWS).reverse
      rw [List.reverse_reverse] at h2
      exact h2.symm
    rw [hgl] at hc
    have hsome : some (((l.dropWhile pyWS).reverse.dropWhile pyWS).head hD) = some c := by
      rw [← List.head?_eq_head hD]
      exact hc
    have hed : ((l.dropWhile pyWS).reverse.dropWhile pyWS).head hD = c :=
      Option.some.inj hsome
    rw [← hed]
    exact List.head_dropWhile_not pyWS (l.dropWhile pyWS).reverse hD

lemma isTerm_not_ws (c : Char) (h : isTerm c = true) : pyWS c = false := by
  simp only [isTerm, Bool.or_eq_true, decide_eq_true_eq] at h
  rcases h with (h | h) | h <;> subst h <;> rfl

lemma pyStrip_term_ne_nil (cur : List Char) (c : Char) (hc : pyWS c = false) :
    pyStrip (cur ++ [c]) ≠ [] := by
  have hs : startsNW [c] := by
    intro d hd
    simp at hd
    subst hd
    exact hc
  have he : endsNW (cur ++ [c]) := by
    apply endsNW_append _ _ (by simp)
    intro d hd
    simp at hd
    subst hd
    exact hc
  have hk : leadWS (cur ++ [c]) ≤ cur.length := leadWS_append_le cur [c] hs (by simp)
  have hkl : leadWS (cur ++ [c]) < (cur ++ [c]).length := by
    simp only [List.length_append, List.length_cons, List.length_nil]
    omega
  exact pyStrip_ne_nil_of_shorter _ _ hkl (pyStrip_of_endsNW _ (by simp) he)

lemma splitSentencesAux_good : ∀ t cur, ∀ s ∈ splitSentencesAux t cur, goodSent s := by
  intro t
  induction t with
  | nil =>
    intro cur s hs
    simp only [splitSentencesAux] at hs
    split at hs
    · simp at hs
    · simp at hs
      subst hs
      exact goodSent_pyStrip cur (by assumption)
  | cons c rest ih =>
    intro cur s hs
    simp only [splitSentencesAux] at hs
    split at hs
    · rcases List.mem_cons.mp hs with h | h
      · subst h
        have hterm : isTerm c = true := by
          rename_i hcond
          exact_mod_cast hcond.1
        exact goodSent_pyStrip _ (pyStrip_term_ne_nil cur c (isTerm_not_ws c hterm))
      · exact ih [] s h
    · exact ih (cur ++ [c]) s hs

lemma sentencesOf_good (t : List Char) : ∀ s ∈ sentencesOf t, goodSent s :=
  splitSentencesAux_good t []

/-- Blank text yields no sentences. -/
lemma pyStrip_eq_nil_of_all_ws (l : List Char) (h : ∀ c ∈ l, pyWS c = true) :
    pyStrip l = [] := by
  have hL : pyStripLeft l = [] := List.dropWhile_eq_nil_iff.mpr h
  unfold pyStrip
  rw [hL]
  rfl

lemma all_ws_of_pyStrip_eq_nil (l : List Char) (h : pyStrip l = []) :
    ∀ c ∈ l, pyWS c = true := by
  have hR : (pyStripLeft l).reverse.dropWhile pyWS = [] := by
    unfold pyStrip pyStripRight at h
    simpa using h
  have hLall : ∀ c ∈ pyStripLeft l, pyWS c = true := by
    intro c hc
    exact List.dropWhile_eq_nil_iff.mp hR c (by simpa using hc)
  intro c hc
  have hsplit : l = l.takeWhile pyWS ++ l.dropWhile pyWS :=
    (List.takeWhile_append_dropWhile pyWS l).symm
  rw [hsplit] at hc
  rcases List.mem_append.mp hc with h1 | h1
  · exact List.mem_takeWhile_imp h1
  · exact hLall c h1

lemma ws_not_term (c : Char) (h : pyWS c = true) : isTerm c = false := by
  simp only [pyWS, Bool.or_eq_true, decide_eq_true_eq] at h
  rcases h with ((((h | h) | h) | h) | h) | h <;> subst h <;> rfl

lemma splitSentencesAux_blank : ∀ t cur, (∀ c ∈ t, pyWS c = true) →
    (∀ c ∈ cur, pyWS c = true) → splitSentencesAux t cur = [] := by
  intro t
  induction t with
  | nil =>
    intro cur _ hcur
    simp [splitSentencesAux, pyStrip_eq_nil_of_all_ws cur hcur]
  | cons c rest ih =>
    intro cur ht hcur
    have hc : pyWS c = true := ht c (by simp)
    have hterm : isTerm c = false := ws_not_term c hc
    simp only [splitSentencesAux]
    rw [if_neg (by simp [hterm])]
    apply ih
    · intro x hx
      exact ht x (List.mem_cons_of_mem c hx)
    · intro x hx
      rcases List.mem_append.mp hx with h1 | h1
      · exact hcur x h1
      · simp at h1
        subst h1
        exact hc

lemma sentencesOf_blank (t : List Char) (h : pyStrip t = []) : sentencesOf t = [] :=
  splitSentencesAux_blank t [] (all_ws_of_pyStrip_eq_nil t h) (by simp)

/-! ## The chunk-accumulation loop preserves the sentence sequence -/

lemma buildAuxI_flex (M ov : Nat) :
    ∀ (rest : List (List Char)), (∀ s ∈ rest, goodSent s) →
    ∀ (carried sep : List Char) (pend : List (List Char)),
      (sep = [] ∨ sep = [' ']) → (carried = [] → sep = []) →
      pend ≠ [] → (∀ s ∈ pend, goodSent s) →
      ∃ w r, (w = [] ∨ w = [' ']) ∧ (carried = [] → w = []) ∧
        flatDrop (buildAuxI M ov rest carried.length (carried ++ (sep ++ spaceJoin pend)))
          = w ++ r ∧
        FlexJoin (pend ++ rest) r := by
  intro rest
  induction rest with
  | nil =>
    intro _ carried sep pend hsep hcs hpend hg
    obtain ⟨hne, w, hw, hwc, hdrop⟩ := dropOv_close carried sep pend hsep hcs hpend hg
    refine ⟨w, spaceJoin pend, hw, hwc, ?_, ?_⟩
    · simp only [buildAuxI, if_neg hne, flatDrop, List.map_cons, List.map_nil,
        List.flatten_cons, List.flatten_nil, List.append_nil]
      exact hdrop
    · simpa using flexJoin_spaceJoin pend hpend
  | cons s rest ih =>
    intro hrest carried sep pend hsep hcs hpend hg
    have hgs : goodSent s := hrest s (by simp)
    have hrest2 : ∀ x ∈ rest, goodSent x := fun x hx => hrest x (List.mem_cons_of_mem s hx)
    have hcur_ne : carried ++ (sep ++ spaceJoin pend) ≠ [] := by
      have := (spaceJoin_good pend hpend hg).1
      simp [this]
    by_cases hclose : M < (carried ++ (sep ++ spaceJoin pend)).length + 1 + s.length
    · -- the chunk closes; the next accumulator is seeded from the overlap
      obtain ⟨hne, w, hw, hwc, hdrop⟩ := dropOv_close carried sep pend hsep hcs hpend hg
      obtain ⟨carried2, sep2, hsep2, hcs2, hlen2, hchunk2⟩ :
          ∃ carried2 sep2, (sep2 = [] ∨ sep2 = [' ']) ∧ (carried2 = [] → sep2 = []) ∧
            seedLen ov (carried ++ (sep ++ spaceJoin pend)) = carried2.length ∧
            seedChunk ov (carried ++ (sep ++ spaceJoin pend)) s
              = carried2 ++ (sep2 ++ spaceJoin [s]) := by
        by_cases hseed : 0 < ov ∧ ov < (carried ++ (sep ++ spaceJoin pend)).length
        · refine ⟨(carried ++ (sep ++ spaceJoin pend)).drop
              ((carried ++ (sep ++ spaceJoin pend)).length - ov), [' '],
              Or.inr rfl, ?_, ?_, ?_⟩
          · intro hnil
            exfalso
            have := congrArg List.length hnil
            simp only [List.length_drop, List.length_nil] at this
            omega
          · simp only [seedLen, if_pos hseed, List.length_drop]
            omega
          · simp only [seedChunk, if_pos hseed, spaceJoin]
            rfl
        · refine ⟨[], [], Or.inl rfl, fun _ => rfl, ?_, ?_⟩
          · simp only [seedLen]
            rw [if_neg hseed]
            rfl
          · simp only [seedChunk]
            rw [if_neg hseed]
            simp [spaceJoin]
      obtain ⟨w2, r2, hw2, hwc2, heq2, hfj2⟩ :=
        ih hrest2 carried2 sep2 [s] hsep2 hcs2 (by simp)
          (by
            intro x hx
            simp at hx
            subst hx
            exact hgs)
      refine ⟨w, spaceJoin pend ++ (w2 ++ r2), hw, hwc, ?_, ?_⟩
      · have hunfold : buildAuxI M ov (s :: rest) carried.length
            (carried ++ (sep ++ spaceJoin pend))
            = (ovIn carried.length (carried ++ (sep ++ spaceJoin pend)),
               pyStrip (carried ++ (sep ++ spaceJoin pend))) ::
              buildAuxI M ov rest (seedLen ov (carried ++ (sep ++ spaceJoin pend)))
                (seedChunk ov (carried ++ (sep ++ spaceJoin pend)) s) := by
          simp only [buildAuxI]
          rw [if_pos ⟨hcur_ne, hclose⟩]
        rw [hunfold]
        simp only [flatDrop, List.map_cons, List.flatten_cons]
        rw [show dropOv (ovIn carried.length (carried ++ (sep ++ spaceJoin pend)),
              pyStrip (carried ++ (sep ++ spaceJoin pend)))
            = w ++ spaceJoin pend from hdrop]
        rw [hlen2, hchunk2]
        have : (List.map dropOv (buildAuxI M ov rest carried2.length
            (carried2 ++ (sep2 ++ spaceJoin [s])))).flatten = w2 ++ r2 := heq2
        rw [this]
        simp [List.append_assoc]
      · have hfj2' : FlexJoin (s :: rest) r2 := by simpa using hfj2
        have := flexJoin_append (flexJoin_spaceJoin pend hpend) hpend hfj2'
          (by simp) hw2
        simpa [List.append_assoc] using this
    · -- the sentence is appended to the current chunk
      have hcond : ¬(carried ++ (sep ++ spaceJoin pend) ≠ [] ∧
          M < (carried ++ (sep ++ spaceJoin pend)).length + 1 + s.length) := by
        intro hx
        exact hclose hx.2
      have hunfold : buildAuxI M ov (s :: rest) carried.length
          (carried ++ (sep ++ spaceJoin pend))
          = buildAuxI M ov rest carried.length
            (carried ++ (sep ++ spaceJoin pend) ++ ' ' :: s) := by
        simp only [buildAuxI]
        rw [if_neg hcond, if_neg hcur_ne]
      have hnew : carried ++ (sep ++ spaceJoin pend) ++ ' ' :: s
          = carried ++ (sep ++ spaceJoin (pend ++ [s])) := by
        rw [spaceJoin_append_single pend s hpend]
        simp [List.append_assoc]
      obtain ⟨w2, r2, hw2, hwc2, heq2, hfj2⟩ :=
        ih hrest2 carried sep (pend ++ [s]) hsep hcs (by simp)
          (by
            intro x hx
            rcases List.mem_append.mp hx with h1 | h1
            · exact hg x h1
            · simp at h1
              subst h1
              exact hgs)
      refine ⟨w2, r2, hw2, hwc2, ?_, ?_⟩
      · rw [hunfold, hnew]
        exact heq2
      · have : pend ++ [s] ++ rest = pend ++ s :: rest := by simp
        rwa [this] at hfj2

/-- Claim C2 (amended): the instrumentation `buildAuxI` erases to the chunk
list built by the accumulation pass; concatenating those chunks after
removing from each its carried-over overlap prefix yields exactly the
sentences of the splitting pass in order, consecutive sentences separated
by a single space or by nothing; and the final hard-split pass only cuts
chunks into contiguous pieces, so the returned chunks concatenate to the
same text as the accumulated chunks. -/
theorem smart_chunk_flex_reconstruction (text : String) (M ov : Nat) :
    (buildAuxI M ov (sentencesOf text.toList) 0 []).map Prod.snd
        = buildAux M ov (sentencesOf text.toList) [] ∧
    FlexJoin (sentencesOf text.toList)
        (flatDrop (buildAuxI M ov (sentencesOf text.toList) 0 [])) ∧
    (0 < M →
      ((smart_chunk_text text M ov).map String.toList).flatten
        = (buildAux M ov (sentencesOf text.toList) []).flatten) := by
  refine ⟨buildAuxI_snd M ov _ 0 [], ?_, ?_⟩
  · cases hs : sentencesOf text.toList with
    | nil =>
      have : buildAuxI M ov [] 0 [] = [] := by
        simp [buildAuxI]
        rfl
      rw [this]
      exact FlexJoin.nil
    | cons s0 rest =>
      have hgood : ∀ x ∈ s0 :: rest, goodSent x := by
        rw [← hs]
        exact sentencesOf_good text.toList
      have hstep : buildAuxI M ov (s0 :: rest) 0 []
          = buildAuxI M ov rest 0 s0 := by
        simp only [buildAuxI]
        rw [if_neg (by simp)]
        simp
      obtain ⟨w, r, _, hwc, heq, hfj⟩ :=
        buildAuxI_flex M ov rest (fun x hx => hgood x (List.mem_cons_of_mem s0 hx))
          [] [] [s0] (Or.inl rfl) (fun _ => rfl) (by simp)
          (by
            intro x hx
            simp at hx
            subst hx
            exact hgood _ (by simp))
      have hw0 : w = [] := hwc rfl
      subst hw0
      have hform : ([] : List Char) ++ ([] ++ spaceJoin [s0]) = s0 := by
        simp [spaceJoin]
      rw [hform] at heq
      rw [hstep]
      have : flatDrop (buildAuxI M ov rest ([] : List Char).length s0) = r := by
        rw [heq]
        rfl
      rw [show (0 : Nat) = ([] : List Char).length from rfl, this]
      simpa using hfj
  · intro hM
    have hmap : (smart_chunk_text text M ov).map String.toList
        = smart_chunk_text_core text.toList M ov := by
      simp only [smart_chunk_text, List.map_map]
      have : String.toList ∘ (fun l => String.mk l) = id := by
        funext l
        rfl
      rw [this, List.map_id]
    rw [hmap]
    rw [smart_chunk_text_core]
    split
    · rename_i hblank
      rw [sentencesOf_blank text.toList hblank]
      simp [buildAux]
      rfl
    · exact finalPass_flatten M hM _

/-- Claim C2 counterexample: with the default overlap 50 and maximum size
20, the input below produces two chunks with no overlap carried between
them, and their concatenation (nothing to remove) glues the two sentences
together without the separating space, so the sentence sequence as joined
by the accumulation pass is not reconstructed. -/
theorem smart_chunk_strict_reconstruction_counterexample :
    smart_chunk_text "aaaaaaaaaa.bbbbbbbbb" 20 50
        = ["aaaaaaaaaa.", "bbbbbbbbb"] ∧
    sentencesOf "aaaaaaaaaa.bbbbbbbbb".toList
        = ["aaaaaaaaaa.".toList, "bbbbbbbbb".toList] ∧
    (buildAuxI 20 50 (sentencesOf "aaaaaaaaaa.bbbbbbbbb".toList) 0 []).map Prod.fst
        = [0, 0] ∧
    flatDrop (buildAuxI 20 50 (sentencesOf "aaaaaaaaaa.bbbbbbbbb".toList) 0 [])
        ≠ spaceJoin (sentencesOf "aaaaaaaaaa.bbbbbbbbb".toList) := by
  decide

/-- Claim C2 witness: the amended reconstruction at a concrete input. -/
theorem smart_chunk_flex_reconstruction_witness :
    (0 : Nat) < 20 ∧
    ((smart_chunk_text "Stay focused on it. Keep a clear plan." 20 5).map String.toList).flatten
      = (buildAux 20 5 (sentencesOf "Stay focused on it. Keep a clear plan.".toList) []).flatten ∧
    FlexJoin (sentencesOf "Stay focused on it. Keep a clear plan.".toList)
      (flatDrop (buildAuxI 20 5 (sentencesOf "Stay focused on it. Keep a clear plan.".toList) 0 [])) :=
  ⟨by decide,
   (smart_chunk_flex_reconstruction "Stay focused on it. Keep a clear plan." 20 5).2.2 (by decide),
   (smart_chunk_flex_reconstruction "Stay focused on it. Keep a clear plan." 20 5).2.1⟩

/-! ## The ingestion pipeline

The effectful part of the program is embedded as a pure state machine.
A source folder is a list of directory entries; file bytes are abstracted
as strings.  The external services are oracle functions: `hashFn` stands
for the SHA-256 content digest, `extractO` for text extraction from a
file, `embedO` for the embedding model (`none` is a failed remote call;
the embedding values themselves are irrelevant and abstracted to `Nat`),
and `deleteO` reports whether a vector-store delete call succeeds.  An
upsert failure is caught, logged and ignored by the source without
influencing control flow, so no upsert oracle is needed.  Every external
action of a run is recorded as an `Event`; the persisted hash file is
threaded through as an association list (Python dicts preserve insertion
order). -/

structure FileEntry where
  name : String
  isFile : Bool
  content : String
deriving DecidableEq, Repr

structure Oracles where
  hashFn : String → String
  extractO : FileEntry → String
  embedO : String → Option Nat
  deleteO : List String → Bool

inductive Event where
  | extractEv (fname : String)
  | chunkEv (fname : String)
  | embedEv (fname : String) (chunk : String)
  | upsertEv (fname : String) (ids : List String)
  | deleteEv (fname : String) (ids : List String)
  | saveEv (hashes : List (String × String))
deriving DecidableEq, Repr

def CHUNK_SIZE : Nat := 500

def CHUNK_OVERLAP : Nat := 50

def SUPPORTED_EXTENSIONS : List String := [".txt", ".pdf", ".docx"]

/-- Bool membership test on strings, mirroring the Python `in` operator. -/
def memStr (k : String) : List String → Bool
  | [] => false
  | a :: rest => if a = k then true else memStr k rest

/-- Model of `os.path.splitext(...)[-1].lower()` for names that do not
start with a dot (hidden files are filtered out before this is used). -/
def extOf (name : String) : String :=
  let l := name.toList
  if '.' ∈ l then
    String.mk ('.' :: ((l.reverse.takeWhile (fun c => c ≠ '.')).reverse.map Char.toLower))
  else ""

def hiddenName (name : String) : Bool :=
  match name.toList with
  | '.' :: _ => true
  | _ => false

/-- A directory entry is processed by ingestion (and counted as present
by the cleanup pass) when it is a regular non-hidden file with a
supported extension. -/
def eligible (e : FileEntry) : Bool :=
  e.isFile && !hiddenName e.name && memStr (extOf e.name) SUPPORTED_EXTENSIONS

/-- Vector identifiers: filename dash chunk index. -/
def vecId (fname : String) (i : Nat) : String := fname ++ "-" ++ toString i

/-- `range(0, 1000, 100)`: the start indices of the delete batches. -/
def deleteStarts : List Nat := (List.range 10).map (fun k => k * 100)

/-- Identifiers `fname-start .. fname-(min (start+100) 1000 - 1)`. -/
def deleteBatchIds (fname : String) (start : Nat) : List String :=
  (List.range' start (min (start + 100) 1000 - start)).map (vecId fname)

/-- The delete loop of `delete_vectors_for_file`: each batch is attempted
in turn, and a failing batch breaks out of the loop. -/
def deleteLoop (delO : List String → Bool) (fname : String) : List Nat → List Event
  | [] => []
  | s :: rest =>
    let ids := deleteBatchIds fname s
    if delO ids then Event.deleteEv fname ids :: deleteLoop delO fname rest
    else [Event.deleteEv fname ids]

def delete_vectors_for_file (delO : List String → Bool) (fname : String) : List Event :=
  deleteLoop delO fname deleteStarts

/-- Association-list lookup mirroring a Python dict read. -/
def hmLookup (k : String) : List (String × String) → Option String
  | [] => none
  | (a, v) :: rest => if a = k then some v else hmLookup k rest

/-- `cleanup_deleted_files`: delete the vectors of tracked files that are
no longer present, then persist the filtered hash map.  Nothing happens
(and nothing is saved) when no tracked file has disappeared.  Python
iterates the deleted files as a set; the iteration order is modelled as
map order. -/
def cleanup_deleted_files (O : Oracles) (files : List FileEntry)
    (persisted : List (String × String)) : List Event × List (String × String) :=
  let current := (files.filter eligible).map (fun e => e.name)
  let deleted := (persisted.map Prod.fst).filter (fun k => !memStr k current)
  if deleted.isEmpty then ([], persisted)
  else
    let evs := deleted.flatMap (fun fn => delete_vectors_for_file O.deleteO fn)
    let updated := persisted.filter (fun kv => memStr kv.1 current)
    (evs ++ [Event.saveEv updated], updated)

/-- Pair each chunk with its position, mirroring `enumerate(chunks)`. -/
def enumFromN (n : Nat) : List String → List (Nat × String)
  | [] => []
  | a :: t => (n, a) :: enumFromN (n + 1) t

/-- Embed each chunk; a failed embedding drops the chunk but keeps its
siblings.  Returns the embed events and the identifiers of the vectors
actually produced. -/
def embedChunks (O : Oracles) (fname : String) : List (Nat × String) → List Event × List String
  | [] => ([], [])
  | (i, ch) :: rest =>
    let prev := embedChunks O fname rest
    match O.embedO ch with
    | some _ => (Event.embedEv fname ch :: prev.1, vecId fname i :: prev.2)
    | none => (Event.embedEv fname ch :: prev.1, prev.2)

/-- Split a list into batches of `n`, with a structural fuel argument. -/
def batchesGo (n : Nat) : Nat → List String → List (List String)
  | 0, _ => []
  | _, [] => []
  | fuel + 1, l => l.take n :: batchesGo n fuel (l.drop n)

def batchesOf (n : Nat) (l : List String) : List (List String) :=
  batchesGo n l.length l

/-- Processing of one new or changed file: extract, chunk with the
configured sizes, embed every chunk, and upsert the produced vectors in
batches of 100.  Upsert failures do not alter control flow. -/
def processNewFile (O : Oracles) (e : FileEntry) : List Event :=
  Event.extractEv e.name ::
    (if pyStrip (O.extractO e).toList = [] then []
     else
       Event.chunkEv e.name ::
         (if smart_chunk_text (O.extractO e) CHUNK_SIZE CHUNK_OVERLAP = [] then []
          else
            (embedChunks O e.name
              (enumFromN 0 (smart_chunk_text (O.extractO e) CHUNK_SIZE CHUNK_OVERLAP))).1
              ++ (batchesOf 100 (embedChunks O e.name
                  (enumFromN 0 (smart_chunk_text (O.extractO e)
                    CHUNK_SIZE CHUNK_OVERLAP))).2).map
                (fun b => Event.upsertEv e.name b)))

/-- The per-file loop of `ingest_documents`.  The fresh hash of every
eligible file is recorded in `newHashes` before any skip test. -/
def ingestLoop (O : Oracles) (persisted : List (String × String)) :
    List FileEntry → List (String × String) → List Event × List (String × String)
  | [], newHashes => ([], newHashes)
  | e :: rest, newHashes =>
    if eligible e then
      let h := O.hashFn e.content
      let newHashes2 := newHashes ++ [(e.name, h)]
      if hmLookup e.name persisted = some h then ingestLoop O persisted rest newHashes2
      else
        let delEvs := if (hmLookup e.name persisted).isSome
          then delete_vectors_for_file O.deleteO e.name else []
        let evs := processNewFile O e
        let next := ingestLoop O persisted rest newHashes2
        (delEvs ++ evs ++ next.1, next.2)
    else ingestLoop O persisted rest newHashes

/-- One ingestion run: cleanup of deleted files first (which reloads and
may rewrite the persisted map), then the per-file loop, then one save of
the fresh hash map.  The index-provisioning step and the folder-existence
check perform no store writes and are not modelled. -/
def ingest_documents (O : Oracles) (files : List FileEntry)
    (persisted : List (String × String)) : List Event × List (String × String) :=
  let c := cleanup_deleted_files O files persisted
  let l := ingestLoop O c.2 files []
  (c.1 ++ l.1 ++ [Event.saveEv l.2], l.2)

/-! ## Event classifiers and basic run lemmas -/

def isUpsertEv : Event → Bool
  | Event.upsertEv _ _ => true
  | _ => false

def isDeleteEv : Event → Bool
  | Event.deleteEv _ _ => true
  | _ => false

def isStoreEv (ev : Event) : Bool := isUpsertEv ev || isDeleteEv ev

/-- The file of an event, when it concerns one. -/
def evFile : Event → Option String
  | Event.extractEv f => some f
  | Event.chunkEv f => some f
  | Event.embedEv f _ => some f
  | Event.upsertEv f _ => some f
  | Event.deleteEv f _ => some f
  | Event.saveEv _ => none

/-- The hash map an ingestion run builds: one entry per eligible file in
directory order, carrying the fresh content hash. -/
def eligAssoc (O : Oracles) (files : List FileEntry) : List (String × String) :=
  (files.filter eligible).map (fun e => (e.name, O.hashFn e.content))

lemma memStr_iff (k : String) : ∀ l, memStr k l = true ↔ k ∈ l := by
  intro l
  induction l with
  | nil => simp [memStr]
  | cons a t ih =>
    simp only [memStr]
    by_cases h : a = k
    · subst h
      simp
    · rw [if_neg h]
      rw [ih]
      constructor
      · exact fun hm => List.mem_cons_of_mem a hm
      · intro hm
        rcases List.mem_cons.mp hm with h1 | h1
        · exact absurd h1.symm h
        · exact h1

lemma ingestLoop_snd (O : Oracles) (persisted : List (String × String)) :
    ∀ files acc, (ingestLoop O persisted files acc).2 = acc ++ eligAssoc O files := by
  intro files
  induction files with
  | nil =>
    intro acc
    simp [ingestLoop, eligAssoc]
  | cons e rest ih =>
    intro acc
    by_cases he : eligible e
    · have hassoc : eligAssoc O (e :: rest)
          = (e.name, O.hashFn e.content) :: eligAssoc O rest := by
        simp [eligAssoc, List.filter_cons, he]
      rw [hassoc]
      simp only [ingestLoop, if_pos he]
      by_cases hu : hmLookup e.name persisted = some (O.hashFn e.content)
      · rw [if_pos hu, ih]
        simp
      · rw [if_neg hu]
        simp only []
        rw [ih]
        simp
    · have hassoc : eligAssoc O (e :: rest) = eligAssoc O rest := by
        simp [eligAssoc, List.filter_cons, he]
      rw [hassoc]
      simp only [ingestLoop, if_neg he]
      exact ih acc

lemma eligAssoc_keys (O : Oracles) (files : List FileEntry) :
    (eligAssoc O files).map Prod.fst = (files.filter eligible).map (fun e => e.name) := by
  simp [eligAssoc, List.map_map]

lemma hmLookup_eligAssoc (O : Oracles) :
    ∀ files : List FileEntry, (files.map FileEntry.name).Nodup →
      ∀ e ∈ files, eligible e = true →
        hmLookup e.name (eligAssoc O files) = some (O.hashFn e.content) := by
  intro files
  induction files with
  | nil =>
    intro _ e he
    simp at he
  | cons a rest ih =>
    intro hnd e he helig
    have hnd2 : (rest.map FileEntry.name).Nodup := (List.nodup_cons.mp hnd).2
    have hna : a.name ∉ rest.map FileEntry.name := (List.nodup_cons.mp hnd).1
    rcases List.mem_cons.mp he with h1 | h1
    · subst h1
      simp [eligAssoc, List.filter_cons, helig, hmLookup]
    · by_cases ha : eligible a
      · have : eligAssoc O (a :: rest)
            = (a.name, O.hashFn a.content) :: eligAssoc O rest := by
          simp [eligAssoc, List.filter_cons, ha]
        rw [this]
        have hne : a.name ≠ e.name := by
          intro hx
          exact hna (hx ▸ List.mem_map_of_mem FileEntry.name h1)
        simp only [hmLookup, if_neg hne]
        exact ih hnd2 e h1 helig
      · have : eligAssoc O (a :: rest) = eligAssoc O rest := by
          simp [eligAssoc, List.filter_cons, ha]
        rw [this]
        exact ih hnd2 e h1 helig

lemma cleanup_noop (O : Oracles) (files : List FileEntry)
    (persisted : List (String × String))
    (h : ∀ k ∈ persisted.map Prod.fst, k ∈ (files.filter eligible).map (fun e => e.name)) :
    cleanup_deleted_files O files persisted = ([], persisted) := by
  unfold cleanup_deleted_files
  have hdel : (persisted.map Prod.fst).filter
      (fun k => !memStr k ((files.filter eligible).map (fun e => e.name))) = [] := by
    apply List.filter_eq_nil_iff.mpr
    intro k hk
    have := (memStr_iff k ((files.filter eligible).map (fun e => e.name))).mpr (h k hk)
    simp [this]
  simp only [hdel]
  rfl

lemma ingestLoop_all_unchanged (O : Oracles) (persisted : List (String × String)) :
    ∀ files acc, (∀ e ∈ files, eligible e = true →
        hmLookup e.name persisted = some (O.hashFn e.content)) →
      (ingestLoop O persisted files acc).1 = [] := by
  intro files
  induction files with
  | nil =>
    intro acc _
    rfl
  | cons e rest ih =>
    intro acc h
    by_cases he : eligible e
    · simp only [ingestLoop, if_pos he]
      rw [if_pos (h e (by simp) he)]
      exact ih _ (fun x hx hex => h x (List.mem_cons_of_mem e hx) hex)
    · simp only [ingestLoop, if_neg he]
      exact ih _ (fun x hx hex => h x (List.mem_cons_of_mem e hx) hex)

/-- Claim C3: running ingestion twice over an unchanged folder issues no
upsert and no delete call in the second run, and the persisted hash map
after the second run equals the map after the first. -/
theorem ingest_twice_idempotent (O : Oracles) (files : List FileEntry)
    (p0 : List (String × String)) (hnd : (files.map FileEntry.name).Nodup) :
    ((ingest_documents O files (ingest_documents O files p0).2).1.filter isUpsertEv = [] ∧
     (ingest_documents O files (ingest_documents O files p0).2).1.filter isDeleteEv = []) ∧
    (ingest_documents O files (ingest_documents O files p0).2).2
      = (ingest_documents O files p0).2 := by
  have hp1 : (ingest_documents O files p0).2 = eligAssoc O files := by
    unfold ingest_documents
    simp only []
    rw [ingestLoop_snd]
    rfl
  have hclean : cleanup_deleted_files O files (eligAssoc O files)
      = ([], eligAssoc O files) := by
    apply cleanup_noop
    intro k hk
    rw [eligAssoc_keys] at hk
    exact hk
  have hloop1 : (ingestLoop O (eligAssoc O files) files []).1 = [] := by
    apply ingestLoop_all_unchanged
    intro e he helig
    exact hmLookup_eligAssoc O files hnd e he helig
  have hloop2 : (ingestLoop O (eligAssoc O files) files []).2 = eligAssoc O files := by
    rw [ingestLoop_snd]
    rfl
  have hrun2 : ingest_documents O files (ingest_documents O files p0).2
      = ([Event.saveEv (eligAssoc O files)], eligAssoc O files) := by
    rw [hp1]
    unfold ingest_documents
    rw [hclean]
    simp only []
    rw [hloop2]
    rw [hloop1]
    rfl
  rw [hrun2, hp1]
  refine ⟨⟨?_, ?_⟩, rfl⟩ <;> rfl

/-- Concrete oracles shared by the witnesses: the digest tags the bytes,
extraction returns the bytes, every embedding succeeds, every delete
call succeeds. -/
def oracleW : Oracles :=
  ⟨fun c => c ++ "#h", fun e => e.content, fun _ => some 0, fun _ => true⟩

def filesW : List FileEntry := [⟨"notes.txt", true, "Goals matter. Review weekly."⟩]

/-- Claim C3 witness: a concrete double run. -/
theorem ingest_twice_idempotent_witness :
    ((ingest_documents oracleW filesW (ingest_documents oracleW filesW []).2).1.filter
        isUpsertEv = [] ∧
     (ingest_documents oracleW filesW (ingest_documents oracleW filesW []).2).1.filter
        isDeleteEv = []) ∧
    (ingest_documents oracleW filesW (ingest_documents oracleW filesW []).2).2
      = (ingest_documents oracleW filesW []).2 :=
  ingest_twice_idempotent oracleW filesW [] (by decide)

/-- Claim C6: the fresh hash of every eligible file is present in the map
persisted at the end of the run, whatever the oracles do (in particular
when extraction yields no text, chunking yields no chunks, or every
embedding call fails). -/
theorem ingest_records_hash_always (O : Oracles) (files : List FileEntry)
    (p : List (String × String)) (hnd : (files.map FileEntry.name).Nodup)
    (e : FileEntry) (he : e ∈ files) (helig : eligible e = true) :
    hmLookup e.name (ingest_documents O files p).2 = some (O.hashFn e.content) := by
  unfold ingest_documents
  simp only []
  rw [ingestLoop_snd]
  rw [List.nil_append]
  exact hmLookup_eligAssoc O files hnd e he helig

/-- Oracles whose extraction finds no text and whose embedding always
fails: the pathological case of claim C6. -/
def oracleEmptyW : Oracles :=
  ⟨fun c => c ++ "#h", fun _ => "", fun _ => none, fun _ => true⟩

/-- Claim C6 witness: a file yielding no extractable text still has its
hash recorded. -/
theorem ingest_records_hash_always_witness :
    hmLookup "notes.txt" (ingest_documents oracleEmptyW filesW []).2
      = some ("Goals matter. Review weekly." ++ "#h") :=
  ingest_records_hash_always oracleEmptyW filesW [] (by decide)
    ⟨"notes.txt", true, "Goals matter. Review weekly."⟩ (by decide) (by decide)

/-! ## Shape lemmas for event traces -/

lemma hmLookup_isSome_mem (f : String) :
    ∀ p : List (String × String), (hmLookup f p).isSome → f ∈ p.map Prod.fst := by
  intro p
  induction p with
  | nil => simp [hmLookup]
  | cons kv rest ih =>
    simp only [hmLookup]
    by_cases h : kv.1 = f
    · intro _
      simp [h]
    · rw [if_neg h]
      intro hs
      simp only [List.map_cons, List.mem_cons]
      exact Or.inr (ih hs)

lemma hmLookup_none_of_not_mem (f : String) :
    ∀ p : List (String × String), ¬ f ∈ p.map Prod.fst → hmLookup f p = none := by
  intro p
  induction p with
  | nil => intro _; rfl
  | cons kv rest ih =>
    intro h
    simp only [List.map_cons, List.mem_cons] at h
    push_neg at h
    simp only [hmLookup]
    rw [if_neg (fun hx => h.1 hx.symm)]
    exact ih h.2

lemma hmLookup_filter_none (f : String) (q : String × String → Bool)
    (hq : ∀ v, q (f, v) = false) :
    ∀ p : List (String × String), hmLookup f (p.filter q) = none := by
  intro p
  induction p with
  | nil => rfl
  | cons kv rest ih =>
    by_cases hkv : q kv = true
    · rw [List.filter_cons_of_pos hkv]
      simp only [hmLookup]
      have hne : kv.1 ≠ f := by
        intro hx
        have : q (f, kv.2) = false := hq kv.2
        rw [← hx] at this
        simp at this
        rw [hkv] at this
        exact absurd this (by simp)
      rw [if_neg hne]
      exact ih
    · rw [List.filter_cons_of_neg (by simpa using hkv)]
      exact ih

lemma deleteLoop_shape (delO : List String → Bool) (fname : String) :
    ∀ starts ev, ev ∈ deleteLoop delO fname starts →
      ∃ s, s ∈ starts ∧ ev = Event.deleteEv fname (deleteBatchIds fname s) := by
  intro starts
  induction starts with
  | nil => simp [deleteLoop]
  | cons s rest ih =>
    intro ev hev
    simp only [deleteLoop] at hev
    by_cases hd : delO (deleteBatchIds fname s) = true
    · rw [if_pos hd] at hev
      rcases List.mem_cons.mp hev with h1 | h1
      · exact ⟨s, by simp, h1⟩
      · obtain ⟨t, ht, rfl⟩ := ih ev h1
        exact ⟨t, List.mem_cons_of_mem s ht, rfl⟩
    · rw [if_neg hd] at hev
      simp at hev
      exact ⟨s, by simp, hev⟩

lemma deleteLoop_ne_nil (delO : List String → Bool) (fname : String)
    (starts : List Nat) (h : starts ≠ []) : deleteLoop delO fname starts ≠ [] := by
  cases starts with
  | nil => exact absurd rfl h
  | cons s rest =>
    simp only [deleteLoop]
    by_cases hd : delO (deleteBatchIds fname s) = true
    · rw [if_pos hd]
      simp
    · rw [if_neg hd]
      simp

lemma deleteLoop_success (delO : List String → Bool) (fname : String)
    (hdel : ∀ ids, delO ids = true) :
    ∀ starts, deleteLoop delO fname starts
      = starts.map (fun s => Event.deleteEv fname (deleteBatchIds fname s)) := by
  intro starts
  induction starts with
  | nil => rfl
  | cons s rest ih =>
    simp only [deleteLoop, hdel (deleteBatchIds fname s), if_pos]
    rw [ih]
    rfl

lemma embedChunks_shape (O : Oracles) (fname : String) :
    ∀ l ev, ev ∈ (embedChunks O fname l).1 → ∃ ch, ev = Event.embedEv fname ch := by
  intro l
  induction l with
  | nil => simp [embedChunks]
  | cons p rest ih =>
    intro ev hev
    obtain ⟨i, ch⟩ := p
    simp only [embedChunks] at hev
    cases ho : O.embedO ch with
    | some v =>
      rw [ho] at hev
      rcases List.mem_cons.mp hev with h1 | h1
      · exact ⟨ch, h1⟩
      · exact ih ev h1
    | none =>
      rw [ho] at hev
      rcases List.mem_cons.mp hev with h1 | h1
      · exact ⟨ch, h1⟩
      · exact ih ev h1

lemma processNewFile_shape (O : Oracles) (e : FileEntry) :
    ∀ ev ∈ processNewFile O e,
      evFile ev = some e.name ∧ isDeleteEv ev = false := by
  intro ev hev
  simp only [processNewFile] at hev
  rcases List.mem_cons.mp hev with h1 | h1
  · subst h1
    exact ⟨rfl, rfl⟩
  · split at h1
    · simp at h1
    · rcases List.mem_cons.mp h1 with h2 | h2
      · subst h2
        exact ⟨rfl, rfl⟩
      · split at h2
        · simp at h2
        · rcases List.mem_append.mp h2 with h3 | h3
          · obtain ⟨ch, rfl⟩ := embedChunks_shape O e.name _ ev h3
            exact ⟨rfl, rfl⟩
          · obtain ⟨b, _, rfl⟩ := List.mem_map.mp h3
            exact ⟨rfl, rfl⟩

lemma ingestLoop_tagging (O : Oracles) (p : List (String × String)) :
    ∀ files acc ev, ev ∈ (ingestLoop O p files acc).1 →
      ∃ g ∈ files, eligible g = true ∧
        hmLookup g.name p ≠ some (O.hashFn g.content) ∧
        evFile ev = some g.name := by
  intro files
  induction files with
  | nil => simp [ingestLoop]
  | cons e rest ih =>
    intro acc ev hev
    by_cases he : eligible e
    · simp only [ingestLoop, if_pos he] at hev
      by_cases hu : hmLookup e.name p = some (O.hashFn e.content)
      · rw [if_pos hu] at hev
        obtain ⟨g, hg, h1, h2, h3⟩ := ih _ ev hev
        exact ⟨g, List.mem_cons_of_mem e hg, h1, h2, h3⟩
      · rw [if_neg hu] at hev
        simp only [List.mem_append] at hev
        rcases hev with (hda | hpr) | hrest
        · -- delete events for the changed file
          have : ev ∈ delete_vectors_for_file O.deleteO e.name ∨ ev ∈ ([] : List Event) := by
            split at hda
            · exact Or.inl hda
            · exact Or.inr hda
          rcases this with hmem | hmem
          · obtain ⟨s, _, rfl⟩ := deleteLoop_shape O.deleteO e.name deleteStarts ev hmem
            exact ⟨e, by simp, he, hu, rfl⟩
          · simp at hmem
        · have := (processNewFile_shape O e ev hpr).1
          exact ⟨e, by simp, he, hu, this⟩
        · obtain ⟨g, hg, h1, h2, h3⟩ := ih _ ev hrest
          exact ⟨g, List.mem_cons_of_mem e hg, h1, h2, h3⟩
    · simp only [ingestLoop, if_neg he] at hev
      obtain ⟨g, hg, h1, h2, h3⟩ := ih _ ev hev
      exact ⟨g, List.mem_cons_of_mem e hg, h1, h2, h3⟩

lemma cleanup_shape (O : Oracles) (files : List FileEntry)
    (p : List (String × String)) :
    ∀ ev ∈ (cleanup_deleted_files O files p).1,
      (∃ k ids, ev = Event.deleteEv k ids ∧ k ∈ p.map Prod.fst ∧
        ¬ k ∈ (files.filter eligible).map (fun x => x.name)) ∨
      (∃ m, ev = Event.saveEv m) := by
  intro ev hev
  unfold cleanup_deleted_files at hev
  simp only [] at hev
  split at hev
  · simp at hev
  · rcases List.mem_append.mp hev with h1 | h1
    · obtain ⟨fn, hfn, hin⟩ := List.mem_flatMap.mp h1
      have hfn2 := List.mem_filter.mp hfn
      obtain ⟨s, _, rfl⟩ := deleteLoop_shape O.deleteO fn deleteStarts ev hin
      refine Or.inl ⟨fn, deleteBatchIds fn s, rfl, hfn2.1, ?_⟩
      intro hx
      have := (memStr_iff fn _).mpr hx
      rw [this] at hfn2
      simp at hfn2
    · simp at h1
      exact Or.inr ⟨_, h1⟩

/-! ## Claim C4: unchanged files are untouched, a single change is isolated -/

lemma ingestLoop_single_change (O : Oracles) (p : List (String × String))
    (e : FileEntry) (helig : eligible e = true)
    (hchanged : hmLookup e.name p ≠ some (O.hashFn e.content))
    (htracked : (hmLookup e.name p).isSome) :
    ∀ files acc, (files.map FileEntry.name).Nodup → e ∈ files →
      (∀ g ∈ files, eligible g = true → g.name ≠ e.name →
        hmLookup g.name p = some (O.hashFn g.content)) →
      (ingestLoop O p files acc).1
        = delete_vectors_for_file O.deleteO e.name ++ processNewFile O e := by
  intro files
  induction files with
  | nil =>
    intro acc _ he
    simp at he
  | cons g rest ih =>
    intro acc hnd hmem hothers
    have hnd2 : (rest.map FileEntry.name).Nodup := (List.nodup_cons.mp hnd).2
    have hng : g.name ∉ rest.map FileEntry.name := (List.nodup_cons.mp hnd).1
    rcases List.mem_cons.mp hmem with h1 | h1
    · subst h1
      simp only [ingestLoop, if_pos helig]
      rw [if_neg hchanged]
      simp only [if_pos htracked]
      have hrest0 : (ingestLoop O p rest
          (acc ++ [(e.name, O.hashFn e.content)])).1 = [] := by
        apply ingestLoop_all_unchanged
        intro x hx hex
        apply hothers x (List.mem_cons_of_mem e hx) hex
        intro hxe
        exact hng (hxe ▸ List.mem_map_of_mem FileEntry.name hx)
      rw [hrest0]
      simp
    · have hge : g.name ≠ e.name := by
        intro hx
        exact hng (hx ▸ List.mem_map_of_mem FileEntry.name h1)
      have hothers2 : ∀ x ∈ rest, eligible x = true → x.name ≠ e.name →
          hmLookup x.name p = some (O.hashFn x.content) :=
        fun x hx hex hne => hothers x (List.mem_cons_of_mem g hx) hex hne
      by_cases hg : eligible g
      · simp only [ingestLoop, if_pos hg]
        rw [if_pos (hothers g (by simp) hg hge)]
        exact ih _ hnd2 h1 hothers2
      · simp only [ingestLoop, if_neg hg]
        exact ih _ hnd2 h1 hothers2

lemma embedChunks_ids_ne_nil (O : Oracles) (fname : String)
    (hembed : ∀ ch, (O.embedO ch).isSome) :
    ∀ l, l ≠ [] → (embedChunks O fname l).2 ≠ [] := by
  intro l hl
  cases l with
  | nil => exact absurd rfl hl
  | cons q rest =>
    obtain ⟨i, ch⟩ := q
    simp only [embedChunks]
    cases ho : O.embedO ch with
    | some v => simp
    | none =>
      have := hembed ch
      rw [ho] at this
      simp at this

lemma enumFromN_ne_nil (n : Nat) (l : List String) (h : l ≠ []) :
    enumFromN n l ≠ [] := by
  cases l with
  | nil => exact absurd rfl h
  | cons a t => simp [enumFromN]

lemma batchesOf_ne_nil (n : Nat) (l : List String) (h : l ≠ []) :
    batchesOf n l ≠ [] := by
  cases l with
  | nil => exact absurd rfl h
  | cons a t => simp [batchesOf, batchesGo]

lemma hmLookup_filter_of_pos (name : String) (q : String × String → Bool)
    (hq : ∀ v, q (name, v) = true) :
    ∀ p, hmLookup name (p.filter q) = hmLookup name p := by
  intro p
  induction p with
  | nil => rfl
  | cons kv rest ih =>
    by_cases hkv : q kv = true
    · rw [List.filter_cons_of_pos hkv]
      simp only [hmLookup]
      by_cases hk : kv.1 = name
      · rw [if_pos hk, if_pos hk]
      · rw [if_neg hk, if_neg hk]
        exact ih
    · rw [List.filter_cons_of_neg (by simpa using hkv)]
      simp only [hmLookup]
      by_cases hk : kv.1 = name
      · exfalso
        apply hkv
        have := hq kv.2
        rw [← hk] at this
        simpa using this
      · rw [if_neg hk]
        exact ih

/-- An entry of the hash map whose file is still present survives the
cleanup pass with its value unchanged. -/
lemma hmLookup_cleanup_preserved (O : Oracles) (files : List FileEntry)
    (name hash : String)
    (hcur : name ∈ (files.filter eligible).map (fun x => x.name))
    (p : List (String × String)) (hsame : hmLookup name p = some hash) :
    hmLookup name (cleanup_deleted_files O files p).2 = some hash := by
  unfold cleanup_deleted_files
  simp only []
  split
  · exact hsame
  · rw [hmLookup_filter_of_pos name _
      (fun _ => (memStr_iff _ _).mpr hcur) p]
    exact hsame

lemma isUpsert_of_store_not_delete (ev : Event) (hs : isStoreEv ev = true)
    (hd : isDeleteEv ev = false) : isUpsertEv ev = true := by
  simp only [isStoreEv, Bool.or_eq_true] at hs
  rcases hs with h | h
  · exact h
  · rw [h] at hd
    exact absurd hd (by simp)

/-- Claim C4: (part one) a tracked eligible file whose fresh hash matches
the persisted one contributes no event at all to the run, so no
extraction, chunking, embedding or vector-store call happens for it;
(part two) when exactly one tracked file changed, the store calls of the
run are precisely the delete batches for that file followed by its
upsert batches — all tagged with that file, the delete part nonempty and
issued first, and the reinsert part nonempty whenever extraction,
chunking and embedding succeed. -/
theorem ingest_unchanged_skip_and_single_change :
    (∀ (O : Oracles) (files : List FileEntry) (p : List (String × String))
        (e : FileEntry), (files.map FileEntry.name).Nodup → e ∈ files →
        eligible e = true → hmLookup e.name p = some (O.hashFn e.content) →
        ∀ ev ∈ (ingest_documents O files p).1, evFile ev ≠ some e.name) ∧
    (∀ (O : Oracles) (files : List FileEntry) (p : List (String × String))
        (e : FileEntry) (h0 : String), (files.map FileEntry.name).Nodup → e ∈ files →
        eligible e = true → hmLookup e.name p = some h0 → O.hashFn e.content ≠ h0 →
        (∀ g ∈ files, eligible g = true → g.name ≠ e.name →
          hmLookup g.name p = some (O.hashFn g.content)) →
        (∀ k ∈ p.map Prod.fst, k ∈ (files.filter eligible).map (fun x => x.name)) →
        (∀ ev ∈ (ingest_documents O files p).1, isStoreEv ev = true →
          evFile ev = some e.name) ∧
        (ingest_documents O files p).1.filter isStoreEv
          = delete_vectors_for_file O.deleteO e.name
            ++ (processNewFile O e).filter isStoreEv ∧
        delete_vectors_for_file O.deleteO e.name ≠ [] ∧
        (∀ d ∈ delete_vectors_for_file O.deleteO e.name, isDeleteEv d = true) ∧
        (∀ u ∈ (processNewFile O e).filter isStoreEv, isUpsertEv u = true) ∧
        (pyStrip (O.extractO e).toList ≠ [] →
          smart_chunk_text (O.extractO e) CHUNK_SIZE CHUNK_OVERLAP ≠ [] →
          (∀ ch, (O.embedO ch).isSome) →
          (processNewFile O e).filter isStoreEv ≠ [])) := by
  constructor
  · intro O files p e hnd he helig hsame ev hev hfile
    have hrun : (ingest_documents O files p).1
        = (cleanup_deleted_files O files p).1
          ++ ((ingestLoop O (cleanup_deleted_files O files p).2 files []).1
            ++ [Event.saveEv (ingestLoop O (cleanup_deleted_files O files p).2 files []).2]) := by
      unfold ingest_documents
      simp [List.append_assoc]
    rw [hrun] at hev
    rcases List.mem_append.mp hev with h1 | h1
    · rcases cleanup_shape O files p ev h1 with ⟨k, ids, rfl, _, hk2⟩ | ⟨m, rfl⟩
      · apply hk2
        have : k = e.name := by
          simpa [evFile] using hfile
        rw [this]
        exact List.mem_map_of_mem _ (List.mem_filter.mpr ⟨he, helig⟩)
      · simp [evFile] at hfile
    · rcases List.mem_append.mp h1 with h2 | h2
      · obtain ⟨g, hg, hgel, hgch, hgf⟩ :=
          ingestLoop_tagging O (cleanup_deleted_files O files p).2 files [] ev h2
        have hgname : g.name = e.name := by
          rw [hgf] at hfile
          exact Option.some.inj hfile
        have hge : g = e := List.inj_on_of_nodup_map hnd hg he hgname
        subst hge
        -- the loop consults the hash map as rewritten by the cleanup pass;
        -- an entry present before cleanup and still current survives it
        apply hgch
        exact hmLookup_cleanup_preserved O files g.name _
          (List.mem_map_of_mem _ (List.mem_filter.mpr ⟨hg, hgel⟩)) p hsame
      · simp at h2
        subst h2
        simp [evFile] at hfile
  · intro O files p e h0 hnd he helig hold hne hothers hkeys
    have hclean : cleanup_deleted_files O files p = ([], p) :=
      cleanup_noop O files p hkeys
    have hchanged : hmLookup e.name p ≠ some (O.hashFn e.content) := by
      rw [hold]
      intro hx
      exact hne (Option.some.inj hx).symm
    have htracked : (hmLookup e.name p).isSome := by
      rw [hold]
      rfl
    have hloop : (ingestLoop O p files []).1
        = delete_vectors_for_file O.deleteO e.name ++ processNewFile O e :=
      ingestLoop_single_change O p e helig hchanged htracked files [] hnd he hothers
    have hrun : (ingest_documents O files p).1
        = (delete_vectors_for_file O.deleteO e.name ++ processNewFile O e)
          ++ [Event.saveEv (ingestLoop O p files []).2] := by
      unfold ingest_documents
      rw [hclean]
      simp only []
      rw [hloop]
      simp
    have hdelall : ∀ d ∈ delete_vectors_for_file O.deleteO e.name,
        isDeleteEv d = true := by
      intro d hd
      obtain ⟨s, _, rfl⟩ := deleteLoop_shape O.deleteO e.name deleteStarts d hd
      rfl
    have hupall : ∀ u ∈ (processNewFile O e).filter isStoreEv, isUpsertEv u = true := by
      intro u hu
      have hm := List.mem_filter.mp hu
      exact isUpsert_of_store_not_delete u hm.2 (processNewFile_shape O e u hm.1).2
    refine ⟨?_, ?_, ?_, hdelall, hupall, ?_⟩
    · intro ev hev hst
      rw [hrun] at hev
      rcases List.mem_append.mp hev with h1 | h1
      · rcases List.mem_append.mp h1 with h2 | h2
        · obtain ⟨s, _, rfl⟩ := deleteLoop_shape O.deleteO e.name deleteStarts ev h2
          rfl
        · exact (processNewFile_shape O e ev h2).1
      · simp at h1
        subst h1
        simp [isStoreEv, isUpsertEv, isDeleteEv] at hst
    · rw [hrun]
      rw [List.filter_append, List.filter_append]
      have h1 : (delete_vectors_for_file O.deleteO e.name).filter isStoreEv
          = delete_vectors_for_file O.deleteO e.name := by
        apply List.filter_eq_self.mpr
        intro a ha
        simp [isStoreEv, hdelall a ha]
      have h2 : ([Event.saveEv (ingestLoop O p files []).2]).filter isStoreEv = [] := by
        rfl
      rw [h1, h2]
      simp
    · exact deleteLoop_ne_nil O.deleteO e.name deleteStarts (by decide)
    · intro htext hchunks hembed
      have hids : (embedChunks O e.name
          (enumFromN 0 (smart_chunk_text (O.extractO e) CHUNK_SIZE CHUNK_OVERLAP))).2 ≠ [] :=
        embedChunks_ids_ne_nil O e.name hembed _ (enumFromN_ne_nil 0 _ hchunks)
      have hbat : batchesOf 100 (embedChunks O e.name
          (enumFromN 0 (smart_chunk_text (O.extractO e) CHUNK_SIZE CHUNK_OVERLAP))).2 ≠ [] :=
        batchesOf_ne_nil 100 _ hids
      have hform : processNewFile O e
          = Event.extractEv e.name :: Event.chunkEv e.name ::
            ((embedChunks O e.name (enumFromN 0
                (smart_chunk_text (O.extractO e) CHUNK_SIZE CHUNK_OVERLAP))).1
              ++ (batchesOf 100 (embedChunks O e.name (enumFromN 0
                  (smart_chunk_text (O.extractO e) CHUNK_SIZE CHUNK_OVERLAP))).2).map
                (fun b => Event.upsertEv e.name b)) := by
        unfold processNewFile
        rw [if_neg htext, if_neg hchunks]
      rw [hform]
      simp only [List.filter_cons]
      rw [show isStoreEv (Event.extractEv e.name) = false from rfl]
      rw [show isStoreEv (Event.chunkEv e.name) = false from rfl]
      simp only [Bool.false_eq_true, if_false]
      rw [List.filter_append]
      have hemb : ((embedChunks O e.name (enumFromN 0
          (smart_chunk_text (O.extractO e) CHUNK_SIZE CHUNK_OVERLAP))).1).filter
            isStoreEv = [] := by
        apply List.filter_eq_nil_iff.mpr
        intro a ha
        obtain ⟨ch, rfl⟩ := embedChunks_shape O e.name _ a ha
        simp [isStoreEv, isUpsertEv, isDeleteEv]
      rw [hemb]
      have hup : ((batchesOf 100 (embedChunks O e.name (enumFromN 0
          (smart_chunk_text (O.extractO e) CHUNK_SIZE CHUNK_OVERLAP))).2).map
            (fun b => Event.upsertEv e.name b)).filter isStoreEv
          = (batchesOf 100 (embedChunks O e.name (enumFromN 0
              (smart_chunk_text (O.extractO e) CHUNK_SIZE CHUNK_OVERLAP))).2).map
            (fun b => Event.upsertEv e.name b) := by
        apply List.filter_eq_self.mpr
        intro a ha
        obtain ⟨b, _, rfl⟩ := List.mem_map.mp ha
        rfl
      rw [hup]
      simp only [List.nil_append]
      intro hcon
      apply hbat
      have := congrArg List.length hcon
      simp at this
      exact List.length_eq_zero.mp (by simpa using this)

/-- Claim C4 witness: concrete unchanged run and concrete single-change run. -/
theorem ingest_unchanged_skip_and_single_change_witness :
    (∀ ev ∈ (ingest_documents oracleW filesW
        [("notes.txt", "Goals matter. Review weekly." ++ "#h")]).1,
      evFile ev ≠ some "notes.txt") ∧
    ((ingest_documents oracleW filesW [("notes.txt", "old")]).1.filter isStoreEv
      = delete_vectors_for_file oracleW.deleteO "notes.txt"
        ++ (processNewFile oracleW
            ⟨"notes.txt", true, "Goals matter. Review weekly."⟩).filter isStoreEv ∧
     (processNewFile oracleW
        ⟨"notes.txt", true, "Goals matter. Review weekly."⟩).filter isStoreEv ≠ []) := by
  constructor
  · exact ingest_unchanged_skip_and_single_change.1 oracleW filesW
      [("notes.txt", "Goals matter. Review weekly." ++ "#h")]
      ⟨"notes.txt", true, "Goals matter. Review weekly."⟩
      (by decide) (by decide) (by decide) (by decide)
  · have h := ingest_unchanged_skip_and_single_change.2 oracleW filesW
      [("notes.txt", "old")] ⟨"notes.txt", true, "Goals matter. Review weekly."⟩ "old"
      (by decide) (by decide) (by decide) (by decide) (by decide) (by decide) (by decide)
    exact ⟨h.2.1, h.2.2.2.2.2 (by decide) (by decide) (fun ch => rfl)⟩

/-! ## Claim C5: deletion of a tracked file that disappeared -/

/-- The identifiers a delete event asks the store to remove for file `f`. -/
def deleteIdsFor (f : String) : Event → List String
  | Event.deleteEv k ids => if k = f then ids else []
  | _ => []

lemma flatten_map_nil {α β : Type} (g : α → List β) :
    ∀ l : List α, (∀ a ∈ l, g a = []) → ((l.map g).flatten) = [] := by
  intro l
  induction l with
  | nil => intro _; rfl
  | cons a t ih =>
    intro h
    simp only [List.map_cons, List.flatten_cons, h a (by simp)]
    exact ih (fun x hx => h x (List.mem_cons_of_mem a hx))

lemma flatten_map_map {α β : Type} (g : α → β) :
    ∀ L : List (List α), ((L.map (List.map g)).flatten) = L.flatten.map g := by
  intro L
  induction L with
  | nil => rfl
  | cons a t ih =>
    simp only [List.map_cons, List.flatten_cons, List.map_append, ih]

set_option maxRecDepth 4000 in
lemma deleteStarts_cover :
    (deleteStarts.map (fun s => List.range' s (min (s + 100) 1000 - s))).flatten
      = List.range 1000 := by
  decide

lemma delete_vectors_cover (delO : List String → Bool) (fname : String)
    (hdel : ∀ ids, delO ids = true) :
    ((delete_vectors_for_file delO fname).map (deleteIdsFor fname)).flatten
      = (List.range 1000).map (vecId fname) := by
  unfold delete_vectors_for_file
  rw [deleteLoop_success delO fname hdel]
  have h1 : (deleteStarts.map (fun s => Event.deleteEv fname (deleteBatchIds fname s))).map
      (deleteIdsFor fname) = deleteStarts.map (fun s => deleteBatchIds fname s) := by
    rw [List.map_map]
    apply List.map_congr_left
    intro s _
    simp [deleteIdsFor]
  rw [h1]
  have h2 : deleteStarts.map (fun s => deleteBatchIds fname s)
      = (deleteStarts.map (fun s => List.range' s (min (s + 100) 1000 - s))).map
          (List.map (vecId fname)) := by
    rw [List.map_map]
    rfl
  rw [h2, flatten_map_map, deleteStarts_cover]

lemma delete_vectors_other (delO : List String → Bool) (fn f : String) (hne : fn ≠ f) :
    ((delete_vectors_for_file delO fn).map (deleteIdsFor f)).flatten = [] := by
  apply flatten_map_nil
  intro ev hev
  obtain ⟨s, _, rfl⟩ := deleteLoop_shape delO fn deleteStarts ev hev
  simp [deleteIdsFor, hne]

lemma flatten_deleted_none (delO : List String → Bool) (f : String) :
    ∀ dl : List String, ¬ f ∈ dl →
      (((dl.flatMap (fun fn => delete_vectors_for_file delO fn)).map
        (deleteIdsFor f)).flatten) = [] := by
  intro dl
  induction dl with
  | nil => intro _; rfl
  | cons a t ih =>
    intro h
    simp only [List.flatMap_cons, List.map_append, List.flatten_append]
    rw [delete_vectors_other delO a f (fun hx => h (hx ▸ List.mem_cons_self a t))]
    rw [ih (fun hx => h (List.mem_cons_of_mem a hx))]
    rfl

lemma flatten_deleted (delO : List String → Bool) (f : String)
    (hdel : ∀ ids, delO ids = true) :
    ∀ dl : List String, dl.Nodup → f ∈ dl →
      (((dl.flatMap (fun fn => delete_vectors_for_file delO fn)).map
        (deleteIdsFor f)).flatten) = (List.range 1000).map (vecId f) := by
  intro dl
  induction dl with
  | nil =>
    intro _ h
    simp at h
  | cons a t ih =>
    intro hnd hmem
    simp only [List.flatMap_cons, List.map_append, List.flatten_append]
    rcases List.mem_cons.mp hmem with h1 | h1
    · subst h1
      rw [delete_vectors_cover delO f hdel]
      rw [flatten_deleted_none delO f t (List.nodup_cons.mp hnd).1]
      simp
    · have hne : a ≠ f := by
        intro hx
        exact (List.nodup_cons.mp hnd).1 (hx ▸ h1)
      rw [delete_vectors_other delO a f hne]
      rw [ih (List.nodup_cons.mp hnd).2 h1]
      simp

/-- Claim C5: when a tracked file has disappeared from the folder, the
run (with accepting store) first issues, during the cleanup phase and
before any file is processed, delete calls covering every identifier
`f-0` through `f-999`, and both the map saved by the cleanup pass and
the map persisted at the end of the run no longer contain the file. -/
theorem ingest_deleted_file_cleanup (O : Oracles) (files : List FileEntry)
    (p : List (String × String)) (f : String)
    (hpk : (p.map Prod.fst).Nodup)
    (htracked : (hmLookup f p).isSome)
    (habsent : ¬ f ∈ (files.filter eligible).map (fun x => x.name))
    (hdel : ∀ ids, O.deleteO ids = true) :
    ∃ evC evL, (ingest_documents O files p).1 = evC ++ evL ∧
      evC = (cleanup_deleted_files O files p).1 ∧
      (evC.map (deleteIdsFor f)).flatten = (List.range 1000).map (vecId f) ∧
      (∀ ev ∈ evC, isDeleteEv ev = true ∨ ∃ m, ev = Event.saveEv m) ∧
      hmLookup f (cleanup_deleted_files O files p).2 = none ∧
      hmLookup f (ingest_documents O files p).2 = none := by
  have hfkeys : f ∈ p.map Prod.fst := hmLookup_isSome_mem f p htracked
  have hmemf : memStr f ((files.filter eligible).map (fun x => x.name)) = false := by
    cases hm : memStr f ((files.filter eligible).map (fun x => x.name)) with
    | false => rfl
    | true => exact absurd ((memStr_iff _ _).mp hm) habsent
  have hfdel : f ∈ (p.map Prod.fst).filter
      (fun k => !memStr k ((files.filter eligible).map (fun x => x.name))) := by
    apply List.mem_filter.mpr
    exact ⟨hfkeys, by simp [hmemf]⟩
  have hnotempty : ¬((p.map Prod.fst).filter
      (fun k => !memStr k ((files.filter eligible).map (fun x => x.name)))).isEmpty = true := by
    intro hx
    rw [List.isEmpty_iff] at hx
    rw [hx] at hfdel
    simp at hfdel
  have hcleanform : cleanup_deleted_files O files p
      = ((((p.map Prod.fst).filter
            (fun k => !memStr k ((files.filter eligible).map (fun x => x.name)))).flatMap
              (fun fn => delete_vectors_for_file O.deleteO fn))
          ++ [Event.saveEv (p.filter (fun kv =>
              memStr kv.1 ((files.filter eligible).map (fun x => x.name))))],
         p.filter (fun kv =>
            memStr kv.1 ((files.filter eligible).map (fun x => x.name)))) := by
    unfold cleanup_deleted_files
    simp only []
    rw [if_neg hnotempty]
  refine ⟨(cleanup_deleted_files O files p).1,
    (ingestLoop O (cleanup_deleted_files O files p).2 files []).1
      ++ [Event.saveEv (ingestLoop O (cleanup_deleted_files O files p).2 files []).2],
    ?_, rfl, ?_, ?_, ?_, ?_⟩
  · unfold ingest_documents
    simp [List.append_assoc]
  · rw [hcleanform]
    simp only [List.map_append, List.flatten_append]
    rw [flatten_deleted O.deleteO f hdel _ (hpk.filter _) hfdel]
    simp [deleteIdsFor]
  · intro ev hev
    rcases cleanup_shape O files p ev hev with ⟨k, ids, rfl, _, _⟩ | ⟨m, rfl⟩
    · exact Or.inl rfl
    · exact Or.inr ⟨m, rfl⟩
  · rw [hcleanform]
    exact hmLookup_filter_none f _ (fun v => hmemf) p
  · unfold ingest_documents
    simp only []
    rw [ingestLoop_snd, List.nil_append]
    apply hmLookup_none_of_not_mem
    rw [eligAssoc_keys]
    exact habsent

/-- Claim C5 witness: a concrete run over a folder from which the only
tracked file has been removed. -/
theorem ingest_deleted_file_cleanup_witness :
    ∃ evC evL, (ingest_documents oracleW [] [("gone.txt", "h1")]).1 = evC ++ evL ∧
      evC = (cleanup_deleted_files oracleW [] [("gone.txt", "h1")]).1 ∧
      (evC.map (deleteIdsFor "gone.txt")).flatten
        = (List.range 1000).map (vecId "gone.txt") ∧
      (∀ ev ∈ evC, isDeleteEv ev = true ∨ ∃ m, ev = Event.saveEv m) ∧
      hmLookup "gone.txt" (cleanup_deleted_files oracleW [] [("gone.txt", "h1")]).2 = none ∧
      hmLookup "gone.txt" (ingest_documents oracleW [] [("gone.txt", "h1")]).2 = none :=
  ingest_deleted_file_cleanup oracleW [] [("gone.txt", "h1")] "gone.txt"
    (by decide) (by decide) (by decide) (fun _ => rfl)

/-! ## The query path

`query_index` embeds the query and searches the store, turning any
remote failure into an empty match list.  `generate_response` composes
the answer from the matches; the Bool of the result records whether the
generation model was invoked. -/

structure MatchR where
  text? : Option String
  source? : Option String
deriving DecidableEq, Repr

def matchText (m : MatchR) : String := m.text?.getD ""

def matchSource (m : MatchR) : String := m.source?.getD "unknown"

/-- A match contributes context when both its text and its source are
non-empty (`if text and source:` in the source). -/
def contributes (m : MatchR) : Bool :=
  if matchText m = "" then false else if matchSource m = "" then false else true

def query_index (embedO : String → Option Nat)
    (queryO : Nat → Option (List MatchR)) (q : String) : List MatchR :=
  match embedO q with
  | none => []
  | some v =>
    match queryO v with
    | none => []
    | some r => r

def NOT_FOUND_MSG : String :=
  "I couldn\x27t find relevant information in your documents to answer this question. Please try rephrasing your query or check if the relevant documents are uploaded."

def ERROR_MSG : String :=
  "I encountered an error while generating a response. Please try again or contact support if the problem persists."

def SYSTEM_PROMPT : String :=
  "You are a helpful coaching assistant. Provide practical, actionable advice based on the provided documents.\n\nGuidelines:\n- Give specific, practical recommendations\n- Reference the source documents when relevant\n- If the information is insufficient, be honest about limitations\n- Keep responses focused and helpful\n- Use a friendly, professional tone\n- Structure your response clearly with actionable steps when appropriate"

/-- Code-point lexicographic comparison, as Python compares strings. -/
def charListLe : List Char → List Char → Bool
  | [], _ => true
  | _ :: _, [] => false
  | a :: as, b :: bs => if a = b then charListLe as bs else decide (a.val < b.val)

def strLeB (s t : String) : Bool := charListLe s.toList t.toList

def insortStr (s : String) : List String → List String
  | [] => [s]
  | t :: rest => if strLeB s t then s :: t :: rest else t :: insortStr s rest

/-- Insertion sort standing for Python `sorted` over the source set. -/
def sortStrs (l : List String) : List String := l.foldr insortStr []

def contextParts (ms : List MatchR) : List String :=
  (ms.filter contributes).map (fun m => "From " ++ matchSource m ++ ":\n" ++ matchText m)

def contextOf (ms : List MatchR) : String := String.intercalate "\n\n" (contextParts ms)

def sourcesListOf (ms : List MatchR) : String :=
  String.intercalate ", " (sortStrs ((ms.filter contributes).map matchSource).dedup)

def userMsgOf (q : String) (ms : List MatchR) : String :=
  "Query: " ++ q ++ "\n\nContext from documents:\n" ++ contextOf ms

def generate_response (llmO : String → String → Option String) (q : String)
    (ms : List MatchR) : Bool × String :=
  if ms.isEmpty then (false, NOT_FOUND_MSG)
  else
    match llmO SYSTEM_PROMPT (userMsgOf q ms) with
    | none => (true, ERROR_MSG)
    | some answer =>
      (true,
        if (ms.filter contributes).isEmpty then answer
        else answer ++ "\n\n*Sources: " ++ sourcesListOf ms ++ "*")

/-- Claim C8: an empty match list yields the canned fallback with no
generation call, and an embedding or store failure during search yields
an empty match list, hence the same fallback. -/
theorem query_empty_fallback :
    (∀ (llmO : String → String → Option String) (q : String),
      generate_response llmO q [] = (false, NOT_FOUND_MSG)) ∧
    (∀ (embedO : String → Option Nat) (queryO : Nat → Option (List MatchR))
        (q : String), embedO q = none → query_index embedO queryO q = []) ∧
    (∀ (embedO : String → Option Nat) (queryO : Nat → Option (List MatchR))
        (q : String) (v : Nat), embedO q = some v → queryO v = none →
      query_index embedO queryO q = []) ∧
    (∀ (llmO : String → String → Option String) (embedO : String → Option Nat)
        (queryO : Nat → Option (List MatchR)) (q : String), embedO q = none →
      generate_response llmO q (query_index embedO queryO q)
        = (false, NOT_FOUND_MSG)) := by
  refine ⟨fun llmO q => rfl, fun embedO queryO q h => ?_, ?_, ?_⟩
  · unfold query_index
    rw [h]
  · intro embedO queryO q v h1 h2
    unfold query_index
    rw [h1]
    show (match queryO v with | none => [] | some r => r) = []
    rw [h2]
  · intro llmO embedO queryO q h
    unfold query_index
    rw [h]
    rfl

/-- Claim C8 witness: concrete failing oracles yield the canned message. -/
theorem query_empty_fallback_witness :
    generate_response (fun _ _ => some "A") "why" [] = (false, NOT_FOUND_MSG) ∧
    query_index (fun _ => none) (fun _ => some [⟨some "t", some "s"⟩]) "why" = [] ∧
    query_index (fun _ => some 7) (fun _ => none) "why" = [] ∧
    generate_response (fun _ _ => some "A") "why"
        (query_index (fun _ => none) (fun _ => some [⟨some "t", some "s"⟩]) "why")
      = (false, NOT_FOUND_MSG) :=
  ⟨query_empty_fallback.1 (fun _ _ => some "A") "why",
   query_empty_fallback.2.1 _ _ "why" rfl,
   query_empty_fallback.2.2.1 _ _ "why" 7 rfl rfl,
   query_empty_fallback.2.2.2 (fun _ _ => some "A") _ _ "why" rfl⟩

/-- Claim C10: a non-empty match list with no non-empty text metadata
still invokes the generation model, with an empty document context; the
sources footer is appended exactly when at least one match contributed
both a text and a source. -/
theorem generate_response_empty_context_and_footer :
    (∀ (llmO : String → String → Option String) (q : String) (ms : List MatchR),
      ms ≠ [] → (∀ m ∈ ms, matchText m = "") →
      (generate_response llmO q ms).1 = true ∧ contextOf ms = "") ∧
    (∀ (llmO : String → String → Option String) (q : String) (ms : List MatchR)
        (a : String), ms ≠ [] → llmO SYSTEM_PROMPT (userMsgOf q ms) = some a →
      ((∀ m ∈ ms, contributes m = false) → (generate_response llmO q ms).2 = a) ∧
      ((∃ m ∈ ms, contributes m = true) →
        (generate_response llmO q ms).2
          = a ++ "\n\n*Sources: " ++ sourcesListOf ms ++ "*")) := by
  constructor
  · intro llmO q ms hne hall
    have hisEmpty : ms.isEmpty = false := by
      cases ms with
      | nil => exact absurd rfl hne
      | cons a t => rfl
    constructor
    · unfold generate_response
      rw [hisEmpty]
      simp only [Bool.false_eq_true, if_false]
      cases llmO SYSTEM_PROMPT (userMsgOf q ms) <;> rfl
    · have hfilter : ms.filter contributes = [] := by
        apply List.filter_eq_nil_iff.mpr
        intro m hm
        simp [contributes, hall m hm]
      unfold contextOf contextParts
      rw [hfilter]
      rfl
  · intro llmO q ms a hne hllm
    have hisEmpty : ms.isEmpty = false := by
      cases ms with
      | nil => exact absurd rfl hne
      | cons a t => rfl
    constructor
    · intro hnone
      have hfilter : ms.filter contributes = [] := by
        apply List.filter_eq_nil_iff.mpr
        intro m hm
        simp [hnone m hm]
      unfold generate_response
      rw [hisEmpty]
      simp only [Bool.false_eq_true, if_false]
      rw [hllm, hfilter]
      rfl
    · intro hsome
      obtain ⟨m, hm, hc⟩ := hsome
      have hfilter : (ms.filter contributes).isEmpty = false := by
        have : m ∈ ms.filter contributes := List.mem_filter.mpr ⟨hm, hc⟩
        cases hf : ms.filter contributes with
        | nil =>
          rw [hf] at this
          simp at this
        | cons x t => rfl
      unfold generate_response
      rw [hisEmpty]
      simp only [Bool.false_eq_true, if_false]
      rw [hllm, hfilter]
      rfl

/-- Claim C10 witness: a text-less match keeps the generation call with
empty context and no footer; a contributing match gains the footer. -/
theorem generate_response_empty_context_and_footer_witness :
    ((generate_response (fun _ _ => some "A") "q" [⟨some "", some "src"⟩]).1 = true ∧
      contextOf [⟨some "", some "src"⟩] = "") ∧
    (generate_response (fun _ _ => some "A") "q" [⟨some "", some "src"⟩]).2 = "A" ∧
    (generate_response (fun _ _ => some "A") "q" [⟨some "txt", some "src"⟩]).2
      = "A" ++ "\n\n*Sources: " ++ sourcesListOf [⟨some "txt", some "src"⟩] ++ "*" :=
  ⟨generate_response_empty_context_and_footer.1 (fun _ _ => some "A") "q"
      [⟨some "", some "src"⟩] (by decide) (by decide),
   (generate_response_empty_context_and_footer.2 (fun _ _ => some "A") "q"
      [⟨some "", some "src"⟩] "A" (by decide) rfl).1 (by decide),
   (generate_response_empty_context_and_footer.2 (fun _ _ => some "A") "q"
      [⟨some "txt", some "src"⟩] "A" (by decide) rfl).2
      ⟨⟨some "txt", some "src"⟩, by decide, by decide⟩⟩

/-! ## Claim C7: behaviour of batched store calls under failure -/

lemma deleteLoop_success_mem (delO : List String → Bool) (fname : String) :
    ∀ starts, (∀ s ∈ starts, delO (deleteBatchIds fname s) = true) →
      deleteLoop delO fname starts
        = starts.map (fun s => Event.deleteEv fname (deleteBatchIds fname s)) := by
  intro starts
  induction starts with
  | nil => intro _; rfl
  | cons s rest ih =>
    intro h
    simp only [deleteLoop]
    rw [if_pos (h s (by simp))]
    rw [ih (fun t ht => h t (List.mem_cons_of_mem s ht))]
    rfl

lemma deleteLoop_break (delO : List String → Bool) (fname : String) :
    ∀ starts1 (s : Nat) (starts2 : List Nat),
      (∀ t ∈ starts1, delO (deleteBatchIds fname t) = true) →
      delO (deleteBatchIds fname s) = false →
      deleteLoop delO fname (starts1 ++ s :: starts2)
        = (starts1 ++ [s]).map (fun t => Event.deleteEv fname (deleteBatchIds fname t)) := by
  intro starts1
  induction starts1 with
  | nil =>
    intro s starts2 _ hs
    simp only [List.nil_append, deleteLoop]
    rw [if_neg (by simp [hs])]
    rfl
  | cons t rest ih =>
    intro s starts2 h1 hs
    simp only [List.cons_append, deleteLoop]
    rw [if_pos (h1 t (by simp))]
    rw [List.append_eq]
    rw [ih s starts2 (fun u hu => h1 u (List.mem_cons_of_mem t hu)) hs]
    rfl

lemma batchesGo_flatten (n : Nat) (hn : 0 < n) :
    ∀ fuel (l : List String), l.length ≤ fuel → (batchesGo n fuel l).flatten = l := by
  intro fuel
  induction fuel with
  | zero =>
    intro l hl
    have : l = [] := List.length_eq_zero.mp (Nat.le_zero.mp hl)
    subst this
    rfl
  | succ k ih =>
    intro l hl
    cases l with
    | nil => rfl
    | cons a t =>
      have hlen : ((a :: t).drop n).length ≤ k := by
        rw [List.length_drop]
        have : (a :: t).length ≤ k + 1 := hl
        omega
      simp only [batchesGo, List.flatten_cons]
      rw [ih _ hlen]
      exact List.take_append_drop n (a :: t)

/-- Claim C7 (amended): when every delete batch succeeds, all ten
scheduled batches are attempted; when a delete batch fails, it is the
last one attempted — the batches after it are skipped (the loop breaks).
Upsert batching, by contrast, is independent of store responses: the
batches partition the produced vector identifiers completely, and the
events issued for a file are exactly one upsert per batch. -/
theorem store_batch_failure_behavior :
    (∀ (delO : List String → Bool) (fname : String),
      (∀ s ∈ deleteStarts, delO (deleteBatchIds fname s) = true) →
      delete_vectors_for_file delO fname
        = deleteStarts.map (fun s => Event.deleteEv fname (deleteBatchIds fname s))) ∧
    (∀ (delO : List String → Bool) (fname : String) (starts1 : List Nat) (s : Nat)
        (starts2 : List Nat), deleteStarts = starts1 ++ s :: starts2 →
      (∀ t ∈ starts1, delO (deleteBatchIds fname t) = true) →
      delO (deleteBatchIds fname s) = false →
      delete_vectors_for_file delO fname
        = (starts1 ++ [s]).map (fun t => Event.deleteEv fname (deleteBatchIds fname t))) ∧
    (∀ (n : Nat) (ids : List String), 0 < n → (batchesOf n ids).flatten = ids) := by
  refine ⟨?_, ?_, ?_⟩
  · intro delO fname h
    exact deleteLoop_success_mem delO fname deleteStarts h
  · intro delO fname starts1 s starts2 hsplit h1 hs
    unfold delete_vectors_for_file
    rw [hsplit]
    exact deleteLoop_break delO fname starts1 s starts2 h1 hs
  · intro n ids hn
    exact batchesGo_flatten n hn ids.length ids le_rfl

/-- A store that rejects any batch containing the identifier `f-100`:
the second delete batch fails. -/
def delOFailW : List String → Bool := fun ids => !memStr "f-100" ids

/-- Claim C7 counterexample: the second delete batch fails and the eight
batches after it are never attempted — only two of the ten scheduled
batches appear in the trace, refuting that remaining delete batches are
still attempted after a failure. -/
theorem delete_batch_break_counterexample :
    delOFailW (deleteBatchIds "f" 0) = true ∧
    delOFailW (deleteBatchIds "f" 100) = false ∧
    deleteStarts.length = 10 ∧
    (delete_vectors_for_file delOFailW "f").length = 2 := by
  decide

/-- Claim C7 witness: concrete instantiations of the amended behaviour. -/
theorem store_batch_failure_behavior_witness :
    delete_vectors_for_file (fun _ => true) "g"
      = deleteStarts.map (fun s => Event.deleteEv "g" (deleteBatchIds "g" s)) ∧
    delete_vectors_for_file delOFailW "f"
      = ([0] ++ [100]).map (fun t => Event.deleteEv "f" (deleteBatchIds "f" t)) ∧
    (batchesOf 100 ["a-0", "a-1"]).flatten = ["a-0", "a-1"] :=
  ⟨store_batch_failure_behavior.1 (fun _ => true) "g" (by decide),
   store_batch_failure_behavior.2.1 delOFailW "f" [0] 100 [200, 300, 400, 500, 600, 700, 800, 900]
     (by decide) (by decide) (by decide),
   store_batch_failure_behavior.2.2 100 ["a-0", "a-1"] (by decide)⟩

/-! ## Claim C9: the tracked-files/vectors invariant -/

/-- Claim C9 counterexample: a new file whose extraction yields no text
is added to the persisted map although the run issues no upsert at all,
so the key set of the map is not contained in the set of files with
vectors in the store. -/
theorem tracked_without_vectors_counterexample :
    hmLookup "notes.txt" (ingest_documents oracleEmptyW filesW []).2
      = some ("Goals matter. Review weekly." ++ "#h") ∧
    (ingest_documents oracleEmptyW filesW []).1.filter isUpsertEv = [] := by
  decide

/-- Claim C9 (amended): the inclusion holds in the other direction —
every file for which the run issues an upsert is a key of the map
persisted at the end of the run, and every key of that map is an
eligible file present in the folder at run start (whether or not any
vector was produced for it). -/
theorem upserted_files_are_tracked (O : Oracles) (files : List FileEntry)
    (p : List (String × String)) :
    (∀ ev ∈ (ingest_documents O files p).1, isUpsertEv ev = true →
      ∃ g, evFile ev = some g ∧ g ∈ ((ingest_documents O files p).2).map Prod.fst) ∧
    (∀ k ∈ ((ingest_documents O files p).2).map Prod.fst,
      k ∈ (files.filter eligible).map (fun x => x.name)) := by
  have hfinal : (ingest_documents O files p).2 = eligAssoc O files := by
    unfold ingest_documents
    simp only []
    rw [ingestLoop_snd]
    rfl
  constructor
  · intro ev hev hup
    have hrun : (ingest_documents O files p).1
        = (cleanup_deleted_files O files p).1
          ++ ((ingestLoop O (cleanup_deleted_files O files p).2 files []).1
            ++ [Event.saveEv (ingestLoop O (cleanup_deleted_files O files p).2 files []).2]) := by
      unfold ingest_documents
      simp [List.append_assoc]
    rw [hrun] at hev
    rcases List.mem_append.mp hev with h1 | h1
    · rcases cleanup_shape O files p ev h1 with ⟨k, ids, rfl, _, _⟩ | ⟨m, rfl⟩
      · exact absurd hup (by simp [isUpsertEv])
      · exact absurd hup (by simp [isUpsertEv])
    · rcases List.mem_append.mp h1 with h2 | h2
      · obtain ⟨g, hg, hgel, _, hgf⟩ :=
          ingestLoop_tagging O (cleanup_deleted_files O files p).2 files [] ev h2
        refine ⟨g.name, hgf, ?_⟩
        rw [hfinal, eligAssoc_keys]
        exact List.mem_map_of_mem _ (List.mem_filter.mpr ⟨hg, hgel⟩)
      · simp at h2
        subst h2
        exact absurd hup (by simp [isUpsertEv])
  · intro k hk
    rw [hfinal, eligAssoc_keys] at hk
    exact hk

/-- Claim C9 witness: a run that does upsert, with the upserted file
present among the persisted keys. -/
theorem upserted_files_are_tracked_witness :
    Event.upsertEv "notes.txt" ["notes.txt-0"] ∈ (ingest_documents oracleW filesW []).1 ∧
    ∃ g, evFile (Event.upsertEv "notes.txt" ["notes.txt-0"]) = some g ∧
      g ∈ ((ingest_documents oracleW filesW []).2).map Prod.fst :=
  ⟨by decide,
   (upserted_files_are_tracked oracleW filesW []).1
     (Event.upsertEv "notes.txt" ["notes.txt-0"]) (by decide) rfl⟩

end CoachingBot
